/-
Verification of the tinyflux secondary-index subsystem (tinyflux/index.py).

The index keeps four posting collections (timestamps, measurements, tags,
fields) over record positions and answers predicate queries with an
IndexResult (a position list plus a completeness flag).  Python dicts are
embedded as insertion-ordered association lists, positions as Nat, epoch
timestamps as Int, and the sorted-list utilities (which live outside the
indexed module) are modelled from their specification.
-/
import Mathlib

/-- Modelled from the spec: `find_eq` from the sorted-list utilities module
(not part of the indexed source).  Binary search over an ascending sequence
for an element equal to `x`; returns the lowest qualifying index, or `none`
when absent. -/
def find_eq (l : List Int) (x : Int) : Option Nat :=
  ((List.range l.length).filter (fun i => l.getD i 0 == x)).head?

/-- Modelled from the spec: `find_lt` — highest index whose element is
strictly less than `x`, or `none`. -/
def find_lt (l : List Int) (x : Int) : Option Nat :=
  ((List.range l.length).filter (fun i => l.getD i 0 < x)).getLast?

/-- Modelled from the spec: `find_le` — highest index whose element is
less than or equal to `x`, or `none`. -/
def find_le (l : List Int) (x : Int) : Option Nat :=
  ((List.range l.length).filter (fun i => l.getD i 0 ≤ x)).getLast?

/-- Modelled from the spec: `find_gt` — lowest index whose element is
strictly greater than `x`, or `none`. -/
def find_gt (l : List Int) (x : Int) : Option Nat :=
  ((List.range l.length).filter (fun i => x < l.getD i 0)).head?

/-- Modelled from the spec: `find_ge` — lowest index whose element is
greater than or equal to `x`, or `none`. -/
def find_ge (l : List Int) (x : Int) : Option Nat :=
  ((List.range l.length).filter (fun i => x ≤ l.getD i 0)).head?

/-- Modelled from the spec: `union_two_sorted_lists` — merge of two
ascending duplicate-free position lists into an ascending duplicate-free
list. -/
def union_two_sorted_lists : List Nat → List Nat → List Nat
  | [], ys => ys
  | x :: xs, [] => x :: xs
  | x :: xs, y :: ys =>
    if x < y then x :: union_two_sorted_lists xs (y :: ys)
    else if y < x then y :: union_two_sorted_lists (x :: xs) ys
    else x :: union_two_sorted_lists xs ys
termination_by a b => a.length + b.length

/-- Modelled from the spec: `intersection_two_sorted_lists` — merge-style
intersection of two ascending duplicate-free position lists. -/
def intersection_two_sorted_lists : List Nat → List Nat → List Nat
  | [], _ => []
  | _ :: _, [] => []
  | x :: xs, y :: ys =>
    if x < y then intersection_two_sorted_lists xs (y :: ys)
    else if y < x then intersection_two_sorted_lists (x :: xs) ys
    else x :: intersection_two_sorted_lists xs ys
termination_by a b => a.length + b.length

/-- Modelled from the spec: `difference_generator_and_sorted_lists` — every
value of the ascending universe not present in the ascending exclude
list. -/
def difference_generator_and_sorted_lists (univ excl : List Nat) : List Nat :=
  univ.filter (fun i => !(excl.contains i))

/-- IndexResult: a position list, a completeness flag and the universe
size, as in `IndexResult.__init__`. -/
structure IndexResult where
  items : List Nat
  is_complete : Bool
  index_count : Nat
deriving Repr, DecidableEq

/-- `IndexResult.__invert__`: complement the items over the position range,
keeping the completeness flag and universe size. -/
def IndexResult.invert (r : IndexResult) : IndexResult :=
  ⟨difference_generator_and_sorted_lists (List.range r.index_count) r.items,
    r.is_complete, r.index_count⟩

/-- `IndexResult.__and__`: sorted intersection of items; complete iff both
operands are complete. -/
def IndexResult.inter (a b : IndexResult) : IndexResult :=
  ⟨intersection_two_sorted_lists a.items b.items,
    a.is_complete && b.is_complete, a.index_count⟩

/-- `IndexResult.__or__`: sorted union of items; complete iff both operands
are complete. -/
def IndexResult.union (a b : IndexResult) : IndexResult :=
  ⟨union_two_sorted_lists a.items b.items,
    a.is_complete && b.is_complete, a.index_count⟩

/-- A record as the index sees it: a timestamp, a measurement name, the
tag key/value pairs, and the field keys (field values are never read by
the index). -/
structure Point where
  time : Int
  measurement : String
  tags : List (String × String)
  fields : List String
deriving Repr, DecidableEq

/-- A Python dict is a key-unique structure: tag keys and field keys of a
record are pairwise distinct. -/
def Point.WF (p : Point) : Prop :=
  (p.tags.map Prod.fst).Nodup ∧ p.fields.Nodup

/-- The Index state: item count, nested tag postings, field postings,
measurement postings, the index-aligned timestamp list, and the validity
flag (`Index.__init__`). -/
structure Index where
  num_items : Nat
  tags : List (String × List (String × List Nat))
  fields : List (String × List Nat)
  measurements : List (String × List Nat)
  timestamps : List Int
  valid : Bool
deriving Repr, DecidableEq

/-- A fresh `Index(valid)` — all collections empty. -/
def Index.init (v : Bool) : Index := ⟨0, [], [], [], [], v⟩

/-- Append `idx` to the posting list of key `k` in an insertion-ordered
dict of posting lists, creating the key at the end when absent
(`_insert_measurements` / the per-key step of `_insert_fields`). -/
def addPosting : List (String × List Nat) → String → Nat → List (String × List Nat)
  | [], k, idx => [(k, [idx])]
  | (k', l) :: rest, k, idx =>
    if k' = k then (k', l ++ [idx]) :: rest
    else (k', l) :: addPosting rest k idx

/-- `_insert_fields`: append `idx` to the posting list of every field key
of the record. -/
def insertFields (m : List (String × List Nat)) (idx : Nat) (keys : List String) :
    List (String × List Nat) :=
  keys.foldl (fun acc k => addPosting acc k idx) m

/-- One tag key/value step of `_insert_tags`: create the tag key's inner
dict when absent, then append `idx` under the tag value. -/
def addTag : List (String × List (String × List Nat)) → String → String → Nat →
    List (String × List (String × List Nat))
  | [], k, v, idx => [(k, [(v, [idx])])]
  | (k', vm) :: rest, k, v, idx =>
    if k' = k then (k', addPosting vm v idx) :: rest
    else (k', vm) :: addTag rest k v idx

/-- `_insert_tags`: index every tag key/value pair of the record at `idx`. -/
def insertTags (m : List (String × List (String × List Nat))) (idx : Nat)
    (tags : List (String × String)) : List (String × List (String × List Nat)) :=
  tags.foldl (fun acc kv => addTag acc kv.1 kv.2 idx) m

/-- The per-point body shared by `build` and `insert`: bump the count,
append the timestamp, and index tags, fields and the measurement at
position `idx`. -/
def insertPoint (i : Index) (idx : Nat) (p : Point) : Index :=
  { i with
    num_items := i.num_items + 1,
    timestamps := i.timestamps ++ [p.time],
    tags := insertTags i.tags idx p.tags,
    fields := insertFields i.fields idx p.fields,
    measurements := addPosting i.measurements p.measurement idx }

/-- `_reset`: empty the index out and mark it valid. -/
def Index.reset (_ : Index) : Index := ⟨0, [], [], [], [], true⟩

/-- `build`: reset, then index each point at its enumeration position. -/
def Index.build (i : Index) (points : List Point) : Index :=
  points.enum.foldl (fun acc pr => insertPoint acc pr.1 pr.2) i.reset

/-- `insert`: index each new point at `len(timestamps)` plus its
enumeration position, without resetting. -/
def Index.insert (i : Index) (points : List Point) : Index :=
  points.enum.foldl (fun acc pr => insertPoint acc (i.timestamps.length + pr.1) pr.2) i

/-- `invalidate`: reset, then mark the index invalid. -/
def Index.invalidate (i : Index) : Index :=
  { i.reset with valid := false }

/-- `_remove_timestamps`: keep the timestamps whose position is not being
removed. -/
def removeTimestamps (ts : List Int) (r : List Nat) : List Int :=
  (ts.enum.filter (fun pr => !(r.contains pr.1))).map Prod.snd

/-- `_remove_measurements` / `_remove_fields`: filter removed positions out
of every posting list and drop keys whose list becomes empty. -/
def removePostings (m : List (String × List Nat)) (r : List Nat) :
    List (String × List Nat) :=
  (m.map (fun kv => (kv.1, kv.2.filter (fun i => !(r.contains i))))).filter
    (fun kv => !kv.2.isEmpty)

/-- `_remove_tags`: filter removed positions out of every inner posting
list, dropping tag values that become empty and tag keys with no surviving
value. -/
def removeTagPostings (m : List (String × List (String × List Nat))) (r : List Nat) :
    List (String × List (String × List Nat)) :=
  (m.map (fun kv => (kv.1, removePostings kv.2 r))).filter (fun kv => !kv.2.isEmpty)

/-- `remove`: rebuild timestamps and all posting collections without the
removed positions and decrement the item count by the size of the removed
set. -/
def Index.remove (i : Index) (r : List Nat) : Index :=
  { i with
    num_items := i.num_items - r.length,
    timestamps := removeTimestamps i.timestamps r,
    measurements := removePostings i.measurements r,
    tags := removeTagPostings i.tags r,
    fields := removePostings i.fields r }

/-- Lookup in the old-position → new-position dict (`u_items[i]` before the
fault check). -/
def dictGet (u : List (Nat × Nat)) (i : Nat) : Option Nat :=
  (u.find? (fun pr => pr.1 == i)).map Prod.snd

/-- Map every position of a posting list through the dict; `none` when any
position is absent (the Python `KeyError`). -/
def lookupAll (u : List (Nat × Nat)) : List Nat → Option (List Nat)
  | [] => some []
  | i :: rest =>
    match dictGet u i, lookupAll u rest with
    | some v, some vs => some (v :: vs)
    | _, _ => none

/-- `_update_measurements`: rewrite each posting list through the position
map, dropping keys whose rewritten list is empty; faults when a position is
missing from the map. -/
def updateMeasurements : List (String × List Nat) → List (Nat × Nat) →
    Option (List (String × List Nat))
  | [], _ => some []
  | (k, l) :: rest, u =>
    match lookupAll u l, updateMeasurements rest u with
    | some l2, some rest2 => some (if l2.isEmpty then rest2 else (k, l2) :: rest2)
    | _, _ => none

/-- `_update_fields`: rewrite each posting list through the position map,
keeping every key; faults when a position is missing from the map. -/
def updateFields : List (String × List Nat) → List (Nat × Nat) →
    Option (List (String × List Nat))
  | [], _ => some []
  | (k, l) :: rest, u =>
    match lookupAll u l, updateFields rest u with
    | some l2, some rest2 => some ((k, l2) :: rest2)
    | _, _ => none

/-- `_update_tags`: rewrite each inner posting list through the position
map, keeping every tag key and value; faults when a position is missing
from the map. -/
def updateTags : List (String × List (String × List Nat)) → List (Nat × Nat) →
    Option (List (String × List (String × List Nat)))
  | [], _ => some []
  | (k, vm) :: rest, u =>
    match updateFields vm u, updateTags rest u with
    | some vm2, some rest2 => some ((k, vm2) :: rest2)
    | _, _ => none

/-- `update`: rewrite measurements, tags and fields through the position
map; `none` models the propagated `KeyError` when any referenced position
is absent from the map. -/
def Index.update (i : Index) (u : List (Nat × Nat)) : Option Index := do
  let ms ← updateMeasurements i.measurements u
  let tg ← updateTags i.tags u
  let fs ← updateFields i.fields u
  pure { i with measurements := ms, tags := tg, fields := fs }

/-- Modelled from the spec: the comparison operator of a time leaf
(`query._operator` and `query._rhs` of a SimpleQuery over `_time` from the
query module, which is outside the indexed source); `other` carries the
fallback test applied to each timestamp. -/
inductive TimeOp where
  | eq (rhs : Int)
  | ne (rhs : Int)
  | lt (rhs : Int)
  | le (rhs : Int)
  | gt (rhs : Int)
  | ge (rhs : Int)
  | other (test : Int → Bool)

/-- Modelled from the spec: the predicate tree consumed by `search` — leaf
predicates targeting one of time, measurement, tag or field, and AND/OR/NOT
compound nodes (the SimpleQuery/CompoundQuery shapes of the query module,
which is outside the indexed source).  A measurement leaf carries its
resolver-plus-test on the measurement key; a tag leaf carries it on the
key/value pair, `none` marking a resolver mismatch to be skipped; a field
leaf carries only the resolver applicability check on the field key. -/
inductive Query where
  | time (op : TimeOp)
  | measurement (test : String → Bool)
  | tag (test : String → String → Option Bool)
  | field (applicable : String → Bool)
  | qand (q1 q2 : Query)
  | qor (q1 q2 : Query)
  | qnot (q1 : Query)

/-- The `isinstance(query.query1, SimpleQuery) and query.query1._point_attr
== "_fields"` test of the NOT branch of `_search_helper`. -/
def Query.isFieldLeaf : Query → Bool
  | .field _ => true
  | _ => false

/-- The forward duplicate scan of the `eq` branch of `_search_timestamps`:
the found index, then every following index while its timestamp still
equals `rhs`. -/
def collectEq (ts : List Int) (rhs : Int) (m : Nat) : List Nat :=
  m :: (List.range' (m + 1) (ts.length - (m + 1))).takeWhile
    (fun i => ts.getD i 0 == rhs)

/-- `_search_timestamps`: dispatch on the comparison operator; binary
search plus duplicate scan for eq/ne, closed prefix for lt/le, suffix for
gt/ge, and a linear scan for any other operator. -/
def searchTimestamps (ts : List Int) (op : TimeOp) : List Nat :=
  match op with
  | .eq rhs =>
    match find_eq ts rhs with
    | none => []
    | some m => collectEq ts rhs m
  | .ne rhs =>
    match find_eq ts rhs with
    | none => List.range ts.length
    | some m =>
      difference_generator_and_sorted_lists (List.range ts.length)
        (collectEq ts rhs m)
  | .lt rhs =>
    match find_lt ts rhs with
    | none => []
    | some m => List.range (m + 1)
  | .le rhs =>
    match find_le ts rhs with
    | none => []
    | some m => List.range (m + 1)
  | .gt rhs =>
    match find_gt ts rhs with
    | none => []
    | some m => List.range' m (ts.length - m)
  | .ge rhs =>
    match find_ge ts rhs with
    | none => []
    | some m => List.range' m (ts.length - m)
  | .other test => (ts.enum.filter (fun pr => test pr.2)).map Prod.fst

/-- `_search_measurement`: union the posting lists of every measurement
key accepted by the leaf's resolver-plus-test. -/
def searchMeasurement (ms : List (String × List Nat)) (test : String → Bool) :
    List Nat :=
  ms.foldl
    (fun acc kv => if test kv.1 then union_two_sorted_lists acc kv.2 else acc) []

/-- `_search_tags`: union the posting lists of every tag key/value pair the
resolver accepts and the test matches; resolver mismatches are skipped. -/
def searchTags (tags : List (String × List (String × List Nat)))
    (test : String → String → Option Bool) : List Nat :=
  tags.foldl
    (fun acc kv =>
      kv.2.foldl
        (fun acc2 vv =>
          match test kv.1 vv.1 with
          | none => acc2
          | some b => if b then union_two_sorted_lists acc2 vv.2 else acc2)
        acc)
    []

/-- `_search_fields`: union the posting lists of every field key the
resolver applies to; field values are never tested. -/
def searchFields (fields : List (String × List Nat)) (applicable : String → Bool) :
    List Nat :=
  fields.foldl
    (fun acc kv =>
      if applicable kv.1 then union_two_sorted_lists acc kv.2 else acc) []

/-- `_search_helper`: recursive evaluation of the predicate tree.  AND/OR
combine the child results; NOT over a field leaf forces the items to the
whole position range keeping the child's (incomplete) flag, NOT otherwise
complements; time/measurement/tag leaves are complete, field leaves are
incomplete. -/
def searchHelper (i : Index) : Query → IndexResult
  | .time op => ⟨searchTimestamps i.timestamps op, true, i.num_items⟩
  | .measurement test => ⟨searchMeasurement i.measurements test, true, i.num_items⟩
  | .tag test => ⟨searchTags i.tags test, true, i.num_items⟩
  | .field applicable => ⟨searchFields i.fields applicable, false, i.num_items⟩
  | .qand q1 q2 => (searchHelper i q1).inter (searchHelper i q2)
  | .qor q1 q2 => (searchHelper i q1).union (searchHelper i q2)
  | .qnot q1 =>
    let rst := searchHelper i q1
    if q1.isFieldLeaf then { rst with items := List.range i.num_items }
    else rst.invert

/-- `search`: delegate to `_search_helper`. -/
def Index.search (i : Index) (q : Query) : IndexResult := searchHelper i q

/-- `_search_helper` with the index state threaded explicitly, mirroring
the evaluation order of the Python method on its mutable `self`; every
branch reads the collections from the state it received and passes the
state it finished with. -/
def searchHelperSt (i : Index) : Query → IndexResult × Index
  | .time op => (⟨searchTimestamps i.timestamps op, true, i.num_items⟩, i)
  | .measurement test =>
    (⟨searchMeasurement i.measurements test, true, i.num_items⟩, i)
  | .tag test => (⟨searchTags i.tags test, true, i.num_items⟩, i)
  | .field applicable =>
    (⟨searchFields i.fields applicable, false, i.num_items⟩, i)
  | .qand q1 q2 =>
    let pr1 := searchHelperSt i q1
    let pr2 := searchHelperSt pr1.2 q2
    (pr1.1.inter pr2.1, pr2.2)
  | .qor q1 q2 =>
    let pr1 := searchHelperSt i q1
    let pr2 := searchHelperSt pr1.2 q2
    (pr1.1.union pr2.1, pr2.2)
  | .qnot q1 =>
    let pr1 := searchHelperSt i q1
    if q1.isFieldLeaf then
      ({ pr1.1 with items := List.range pr1.2.num_items }, pr1.2)
    else (pr1.1.invert, pr1.2)

/-- `search` with the index state threaded explicitly. -/
def Index.searchSt (i : Index) (q : Query) : IndexResult × Index :=
  searchHelperSt i q

/-- Folding point insertions never touches the validity flag. -/
theorem foldl_insertPoint_valid (f : Nat × Point → Nat) :
    ∀ (l : List (Nat × Point)) (acc : Index),
      (l.foldl (fun a pr => insertPoint a (f pr) pr.2) acc).valid = acc.valid := by
  intro l
  induction l with
  | nil => intro acc; rfl
  | cons hd tl ih => intro acc; simpa using ih (insertPoint acc (f hd) hd.2)

/-- C3: for IndexResults of equal index_count, intersection and union are
complete exactly when both operands are complete; one incomplete operand
makes the combination incomplete. -/
theorem completeness_propagation_and_or (a b : IndexResult)
    (h : a.index_count = b.index_count) :
    (a.inter b).is_complete = (a.is_complete && b.is_complete)
    ∧ (a.union b).is_complete = (a.is_complete && b.is_complete) :=
  ⟨rfl, rfl⟩

/-- Witness for C3 at concrete operands: one incomplete operand makes both
combinations incomplete. -/
theorem completeness_propagation_and_or_witness :
    ((IndexResult.mk [] true 2).inter (IndexResult.mk [] false 2)).is_complete = false
    ∧ ((IndexResult.mk [] true 2).union (IndexResult.mk [] false 2)).is_complete = false := by
  have h := completeness_propagation_and_or ⟨[], true, 2⟩ ⟨[], false, 2⟩ rfl
  exact ⟨by simpa using h.1, by simpa using h.2⟩

/-- C10: build on any prior index state (including an invalidated one)
first resets, so it yields exactly the state a fresh valid Index would
reach, and the result is always valid. -/
theorem build_from_any_state_eq_fresh_build (i : Index) (pts : List Point) :
    i.build pts = (Index.init true).build pts ∧ (i.build pts).valid = true := by
  constructor
  · rfl
  · show (pts.enum.foldl (fun acc pr => insertPoint acc pr.1 pr.2) i.reset).valid = true
    simpa using foldl_insertPoint_valid Prod.fst pts.enum i.reset

/-- C9: search is observably pure — evaluating any query against the
state-threaded search returns the functional search result and leaves every
component of the index state unchanged. -/
theorem search_preserves_index_state (i : Index) (q : Query) :
    i.searchSt q = (i.search q, i) := by
  suffices h : ∀ (q : Query) (j : Index), searchHelperSt j q = (searchHelper j q, j) by
    simpa [Index.searchSt, Index.search] using h q i
  intro q
  induction q with
  | time op => intro j; rfl
  | measurement t => intro j; rfl
  | tag t => intro j; rfl
  | field ap => intro j; rfl
  | qand q1 q2 ih1 ih2 => intro j; simp [searchHelperSt, searchHelper, ih1, ih2]
  | qor q1 q2 ih1 ih2 => intro j; simp [searchHelperSt, searchHelper, ih1, ih2]
  | qnot q1 ih =>
    intro j
    by_cases hf : q1.isFieldLeaf <;> simp [searchHelperSt, searchHelper, ih, hf]

/-- C2: NOT over a field leaf forces the items to the whole position range
with the incomplete flag kept false, while NOT over any other child
complements the child's result. -/
theorem not_field_forces_full_range (i : Index) (q : Query) :
    (∀ ap : String → Bool,
        i.search (Query.qnot (Query.field ap))
          = ⟨List.range i.num_items, false, i.num_items⟩)
    ∧ (q.isFieldLeaf = false → i.search (Query.qnot q) = (i.search q).invert) := by
  constructor
  · intro ap
    simp [Index.search, searchHelper, Query.isFieldLeaf]
  · intro h
    simp [Index.search, searchHelper, h]

/-- Witness for C2 at a concrete index and non-field child. -/
theorem not_field_forces_full_range_witness :
    (Index.init true).search (Query.qnot (Query.time (TimeOp.eq 0)))
      = ((Index.init true).search (Query.time (TimeOp.eq 0))).invert :=
  (not_field_forces_full_range (Index.init true) (Query.time (TimeOp.eq 0))).2 rfl

/-- Membership in the merged union is membership in either input. -/
theorem mem_union_two_sorted_lists (a b : List Nat) (z : Nat) :
    z ∈ union_two_sorted_lists a b ↔ z ∈ a ∨ z ∈ b := by
  induction a, b using union_two_sorted_lists.induct with
  | case1 ys => simp [union_two_sorted_lists]
  | case2 x xs => simp [union_two_sorted_lists]
  | case3 x xs y ys h ih => simp [union_two_sorted_lists, h, ih]; tauto
  | case4 x xs y ys h h2 ih => simp [union_two_sorted_lists, h, h2, ih]; tauto
  | case5 x xs y ys h h2 ih =>
    have hxy : x = y := le_antisymm (not_lt.mp h2) (not_lt.mp h)
    subst hxy
    simp [union_two_sorted_lists, h, h2, ih]
    tauto

/-- The merged union of two strictly sorted lists is strictly sorted. -/
theorem union_two_sorted_lists_sorted (a b : List Nat) :
    List.Sorted (· < ·) a → List.Sorted (· < ·) b →
      List.Sorted (· < ·) (union_two_sorted_lists a b) := by
  induction a, b using union_two_sorted_lists.induct with
  | case1 ys => intro _ hb; simpa [union_two_sorted_lists] using hb
  | case2 x xs => intro ha _; simpa [union_two_sorted_lists] using ha
  | case3 x xs y ys h ih =>
    intro ha hb
    rw [show union_two_sorted_lists (x :: xs) (y :: ys)
        = x :: union_two_sorted_lists xs (y :: ys) by
      simp [union_two_sorted_lists, h]]
    rw [List.sorted_cons]
    refine ⟨fun w hw => ?_, ih (List.sorted_cons.mp ha).2 hb⟩
    rcases (mem_union_two_sorted_lists xs (y :: ys) w).mp hw with hw1 | hw2
    · exact (List.sorted_cons.mp ha).1 w hw1
    · rcases List.mem_cons.mp hw2 with rfl | hw3
      · exact h
      · exact lt_trans h ((List.sorted_cons.mp hb).1 w hw3)
  | case4 x xs y ys h h2 ih =>
    intro ha hb
    rw [show union_two_sorted_lists (x :: xs) (y :: ys)
        = y :: union_two_sorted_lists (x :: xs) ys by
      simp [union_two_sorted_lists, h, h2]]
    rw [List.sorted_cons]
    refine ⟨fun w hw => ?_, ih ha (List.sorted_cons.mp hb).2⟩
    rcases (mem_union_two_sorted_lists (x :: xs) ys w).mp hw with hw1 | hw2
    · rcases List.mem_cons.mp hw1 with rfl | hw3
      · exact h2
      · exact lt_trans h2 ((List.sorted_cons.mp ha).1 w hw3)
    · exact (List.sorted_cons.mp hb).1 w hw2
  | case5 x xs y ys h h2 ih =>
    intro ha hb
    have hxy : x = y := le_antisymm (not_lt.mp h2) (not_lt.mp h)
    subst hxy
    rw [show union_two_sorted_lists (x :: xs) (x :: ys)
        = x :: union_two_sorted_lists xs ys by
      simp [union_two_sorted_lists, h]]
    rw [List.sorted_cons]
    refine ⟨fun w hw => ?_, ih (List.sorted_cons.mp ha).2 (List.sorted_cons.mp hb).2⟩
    rcases (mem_union_two_sorted_lists xs ys w).mp hw with hw1 | hw2
    · exact (List.sorted_cons.mp ha).1 w hw1
    · exact (List.sorted_cons.mp hb).1 w hw2

/-- Membership in the merged intersection of two strictly sorted lists is
membership in both inputs. -/
theorem mem_intersection_two_sorted_lists (a b : List Nat) :
    List.Sorted (· < ·) a → List.Sorted (· < ·) b → ∀ z,
      (z ∈ intersection_two_sorted_lists a b ↔ z ∈ a ∧ z ∈ b) := by
  induction a, b using intersection_two_sorted_lists.induct with
  | case1 ys => intro _ _ z; simp [intersection_two_sorted_lists]
  | case2 x xs => intro _ _ z; simp [intersection_two_sorted_lists]
  | case3 x xs y ys h ih =>
    intro ha hb z
    have hx : x ∉ y :: ys := by
      intro hmem
      rcases List.mem_cons.mp hmem with rfl | hmem2
      · exact lt_irrefl x h
      · exact lt_irrefl x (lt_trans h ((List.sorted_cons.mp hb).1 x hmem2))
    rw [show intersection_two_sorted_lists (x :: xs) (y :: ys)
        = intersection_two_sorted_lists xs (y :: ys) by
      simp [intersection_two_sorted_lists, h]]
    rw [ih (List.sorted_cons.mp ha).2 hb z]
    constructor
    · rintro ⟨h1, h2⟩; exact ⟨List.mem_cons_of_mem x h1, h2⟩
    · rintro ⟨h1, h2⟩
      rcases List.mem_cons.mp h1 with rfl | h3
      · exact absurd h2 hx
      · exact ⟨h3, h2⟩
  | case4 x xs y ys h h2 ih =>
    intro ha hb z
    have hy : y ∉ x :: xs := by
      intro hmem
      rcases List.mem_cons.mp hmem with rfl | hmem2
      · exact lt_irrefl y h2
      · exact lt_irrefl y (lt_trans h2 ((List.sorted_cons.mp ha).1 y hmem2))
    rw [show intersection_two_sorted_lists (x :: xs) (y :: ys)
        = intersection_two_sorted_lists (x :: xs) ys by
      simp [intersection_two_sorted_lists, h, h2]]
    rw [ih ha (List.sorted_cons.mp hb).2 z]
    constructor
    · rintro ⟨h1, h3⟩; exact ⟨h1, List.mem_cons_of_mem y h3⟩
    · rintro ⟨h1, h3⟩
      rcases List.mem_cons.mp h3 with rfl | h4
      · exact absurd h1 hy
      · exact ⟨h1, h4⟩
  | case5 x xs y ys h h2 ih =>
    intro ha hb z
    have hxy : x = y := le_antisymm (not_lt.mp h2) (not_lt.mp h)
    subst hxy
    rw [show intersection_two_sorted_lists (x :: xs) (x :: ys)
        = x :: intersection_two_sorted_lists xs ys by
      simp [intersection_two_sorted_lists, h]]
    by_cases hz : z = x
    · subst hz; simp
    · simp only [List.mem_cons, hz, false_or]
      rw [ih (List.sorted_cons.mp ha).2 (List.sorted_cons.mp hb).2 z]

/-- The merged intersection of two strictly sorted lists is strictly
sorted. -/
theorem intersection_two_sorted_lists_sorted (a b : List Nat) :
    List.Sorted (· < ·) a → List.Sorted (· < ·) b →
      List.Sorted (· < ·) (intersection_two_sorted_lists a b) := by
  induction a, b using intersection_two_sorted_lists.induct with
  | case1 ys => intro _ _; simp [intersection_two_sorted_lists]
  | case2 x xs => intro _ _; simp [intersection_two_sorted_lists]
  | case3 x xs y ys h ih =>
    intro ha hb
    rw [show intersection_two_sorted_lists (x :: xs) (y :: ys)
        = intersection_two_sorted_lists xs (y :: ys) by
      simp [intersection_two_sorted_lists, h]]
    exact ih (List.sorted_cons.mp ha).2 hb
  | case4 x xs y ys h h2 ih =>
    intro ha hb
    rw [show intersection_two_sorted_lists (x :: xs) (y :: ys)
        = intersection_two_sorted_lists (x :: xs) ys by
      simp [intersection_two_sorted_lists, h, h2]]
    exact ih ha (List.sorted_cons.mp hb).2
  | case5 x xs y ys h h2 ih =>
    intro ha hb
    have hxy : x = y := le_antisymm (not_lt.mp h2) (not_lt.mp h)
    subst hxy
    rw [show intersection_two_sorted_lists (x :: xs) (x :: ys)
        = x :: intersection_two_sorted_lists xs ys by
      simp [intersection_two_sorted_lists, h]]
    rw [List.sorted_cons]
    refine ⟨fun w hw => ?_,
      ih (List.sorted_cons.mp ha).2 (List.sorted_cons.mp hb).2⟩
    have := (mem_intersection_two_sorted_lists xs ys (List.sorted_cons.mp ha).2
      (List.sorted_cons.mp hb).2 w).mp hw
    exact (List.sorted_cons.mp ha).1 w this.1

/-- Membership in the generator difference: in the universe and not in the
exclude list. -/
theorem mem_difference_generator (univ excl : List Nat) (z : Nat) :
    z ∈ difference_generator_and_sorted_lists univ excl ↔ z ∈ univ ∧ z ∉ excl := by
  simp [difference_generator_and_sorted_lists]

/-- The generator difference of a strictly sorted universe is strictly
sorted. -/
theorem difference_generator_sorted (univ excl : List Nat)
    (h : List.Sorted (· < ·) univ) :
    List.Sorted (· < ·) (difference_generator_and_sorted_lists univ excl) :=
  h.filter _

/-- Strictly sorted lists with the same members are equal. -/
theorem sorted_lt_eq_of_mem_iff {a b : List Nat} (ha : List.Sorted (· < ·) a)
    (hb : List.Sorted (· < ·) b) (h : ∀ x, x ∈ a ↔ x ∈ b) : a = b :=
  List.eq_of_perm_of_sorted ((List.perm_ext_iff_of_nodup ha.nodup hb.nodup).mpr h) ha hb

/-- C7: for a complete IndexResult whose items are an ascending
duplicate-free subset of the position range, intersecting with its
complement is empty, uniting with its complement is the whole range, and
complementing twice restores the items. -/
theorem result_algebra_laws (r : IndexResult)
    (hs : List.Sorted (· < ·) r.items)
    (hb : ∀ x ∈ r.items, x < r.index_count)
    (hc : r.is_complete = true) :
    (r.inter r.invert).items = []
    ∧ (r.union r.invert).items = List.range r.index_count
    ∧ r.invert.invert.items = r.items := by
  have hinv_sorted : List.Sorted (· < ·) r.invert.items :=
    difference_generator_sorted _ _ (List.sorted_lt_range r.index_count)
  refine ⟨?_, ?_, ?_⟩
  · rw [List.eq_nil_iff_forall_not_mem]
    intro z hz
    have := (mem_intersection_two_sorted_lists r.items r.invert.items hs
      hinv_sorted z).mp hz
    have h2 := (mem_difference_generator _ _ z).mp this.2
    exact h2.2 this.1
  · refine sorted_lt_eq_of_mem_iff
      (union_two_sorted_lists_sorted _ _ hs hinv_sorted)
      (List.sorted_lt_range r.index_count) (fun z => ?_)
    simp only [IndexResult.union, IndexResult.invert]
    rw [mem_union_two_sorted_lists, mem_difference_generator]
    constructor
    · rintro (hz | ⟨hz1, _⟩)
      · exact List.mem_range.mpr (hb z hz)
      · exact hz1
    · intro hz
      by_cases hmem : z ∈ r.items
      · exact Or.inl hmem
      · exact Or.inr ⟨hz, hmem⟩
  · refine sorted_lt_eq_of_mem_iff
      (difference_generator_sorted _ _ (List.sorted_lt_range r.index_count))
      hs (fun z => ?_)
    simp only [IndexResult.invert]
    rw [mem_difference_generator, mem_difference_generator]
    constructor
    · rintro ⟨hz1, hz2⟩
      by_contra hmem
      exact hz2 ⟨hz1, hmem⟩
    · intro hmem
      refine ⟨List.mem_range.mpr (hb z hmem), fun hcontra => hcontra.2 hmem⟩

/-- Witness for C7 at a concrete complete result over universe size 3. -/
theorem result_algebra_laws_witness :
    ((IndexResult.mk [0, 2] true 3).inter (IndexResult.mk [0, 2] true 3).invert).items = []
    ∧ ((IndexResult.mk [0, 2] true 3).union (IndexResult.mk [0, 2] true 3).invert).items
        = List.range 3
    ∧ (IndexResult.mk [0, 2] true 3).invert.invert.items = [0, 2] := by
  have h := result_algebra_laws ⟨[0, 2], true, 3⟩ (by decide) (by decide) rfl
  exact ⟨h.1, h.2.1, h.2.2⟩

/-- In a non-descending list, values are monotone in the index. -/
theorem sorted_getD_mono (l : List Int) (h : List.Sorted (· ≤ ·) l)
    (i j : Nat) (hij : i ≤ j) (hj : j < l.length) : l.getD i 0 ≤ l.getD j 0 := by
  rcases Nat.lt_or_ge i j with hlt | hge
  · rw [List.getD_eq_getElem l 0 (lt_of_le_of_lt hij hj), List.getD_eq_getElem l 0 hj]
    exact List.pairwise_iff_getElem.mp h i j _ _ hlt
  · have heq : i = j := le_antisymm hij hge
    subst heq; rfl

/-- The last element of `range n`. -/
theorem range_getLast_eq (n : Nat) :
    (List.range n).getLast? = if n = 0 then none else some (n - 1) := by
  cases n with
  | zero => rfl
  | succ m => rw [List.range_succ]; simp [List.getLast?_concat]

/-- The head of a nonempty `range'`. -/
theorem range'_head_eq (s k : Nat) :
    (List.range' s (k + 1)).head? = some s := by
  rw [List.range'_succ s k 1]; rfl

/-- A downward-closed predicate selects an initial segment of `range n`. -/
theorem filter_range_downclosed (P : Nat → Bool) :
    ∀ n, (∀ i j, i ≤ j → j < n → P j = true → P i = true) →
      (List.range n).filter P = List.range ((List.range n).countP P) := by
  intro n
  induction n with
  | zero => intro _; rfl
  | succ m ih =>
    intro h
    rw [List.range_succ, List.filter_append, List.countP_append]
    by_cases hp : P m = true
    · have hall : ∀ i ∈ List.range m, P i = true := fun i hi =>
        h i m (Nat.le_of_lt (List.mem_range.mp hi)) (Nat.lt_succ_self m) hp
      rw [List.filter_eq_self.mpr hall]
      have hc : (List.range m).countP P = m := by
        rw [List.countP_eq_length.mpr hall, List.length_range]
      rw [hc]
      simp [hp, List.range_succ]
    · have hp' : P m = false := by simpa using hp
      have ih' := ih (fun i j hij hj hpj => h i j hij (Nat.lt_succ_of_lt hj) hpj)
      rw [ih']
      simp [hp']

/-- An upward-closed predicate selects a final segment of `range n`. -/
theorem filter_range_upclosed (P : Nat → Bool) :
    ∀ n, (∀ i j, i ≤ j → j < n → P i = true → P j = true) →
      (List.range n).filter P
        = List.range' (n - (List.range n).countP P) ((List.range n).countP P) := by
  intro n
  induction n with
  | zero => intro _; rfl
  | succ m ih =>
    intro h
    rw [List.range_succ, List.filter_append, List.countP_append]
    by_cases hp : P m = true
    · have ih' := ih (fun i j hij hj hpi => h i j hij (Nat.lt_succ_of_lt hj) hpi)
      rw [ih']
      have hcle : (List.range m).countP P ≤ m := by
        have := List.countP_le_length P (l := List.range m)
        simpa using this
      have h1 : List.filter P [m] = [m] := by simp [hp]
      have h2 : List.countP P [m] = 1 := by simp [hp]
      rw [h1, h2]
      set c := (List.range m).countP P with hc
      have hm : m + 1 - (c + 1) = m - c := by omega
      rw [hm, List.range'_concat]
      have harith : m - c + 1 * c = m := by omega
      rw [harith]
    · have hp' : P m = false := by simpa using hp
      have hall : ∀ i ∈ List.range m, ¬ (P i = true) := by
        intro i hi hcon
        have := h i m (Nat.le_of_lt (List.mem_range.mp hi)) (Nat.lt_succ_self m) hcon
        rw [this] at hp'
        exact Bool.noConfusion hp'
      have hfil : (List.range m).filter P = [] := by
        rw [List.filter_eq_nil_iff]
        exact hall
      have hcnt : (List.range m).countP P = 0 := by
        rw [List.countP_eq_zero]
        exact hall
      rw [hfil, hcnt]
      simp [hp']

/-- `takeWhile` over a consecutive range with a predicate that holds on the
first `u` values and stops there. -/
theorem takeWhile_range' (P : Nat → Bool) :
    ∀ (u t s : Nat), u ≤ t →
      (∀ i, s ≤ i → i < s + u → P i = true) →
      (u = t ∨ P (s + u) = false) →
      (List.range' s t).takeWhile P = List.range' s u := by
  intro u
  induction u with
  | zero =>
    intro t s _ _ hstop
    rcases hstop with rfl | hPf
    · rfl
    · cases t with
      | zero => rfl
      | succ t' =>
        rw [List.range'_succ s t' 1, List.takeWhile_cons]
        simpa using hPf
  | succ u' ih =>
    intro t s hu hall hstop
    cases t with
    | zero => omega
    | succ t' =>
      rw [List.range'_succ s t' 1]
      have hPs : P s = true := hall s le_rfl (by omega)
      rw [List.takeWhile_cons, hPs]
      simp only [if_true]
      have hstop2 : u' = t' ∨ P (s + 1 + u') = false := by
        rcases hstop with heq | hPf
        · left; omega
        · right
          have harith : s + 1 + u' = s + (u' + 1) := by omega
          rw [harith]; exact hPf
      rw [ih t' (s + 1) (by omega) (fun i hi1 hi2 => hall i (by omega) (by omega)) hstop2]
      rw [← List.range'_succ s u' 1]

/-- On a non-descending timestamp list the `lt` branch returns exactly the
positions with timestamp strictly below the bound. -/
theorem searchTimestamps_lt_sorted (ts : List Int) (x : Int)
    (hs : List.Sorted (· ≤ ·) ts) :
    searchTimestamps ts (TimeOp.lt x)
      = (List.range ts.length).filter (fun i => decide (ts.getD i 0 < x)) := by
  have hdown : ∀ i j, i ≤ j → j < ts.length →
      (decide (ts.getD j 0 < x)) = true → (decide (ts.getD i 0 < x)) = true := by
    intro i j hij hj hpj
    exact decide_eq_true
      (lt_of_le_of_lt (sorted_getD_mono ts hs i j hij hj) (of_decide_eq_true hpj))
  have hfil := filter_range_downclosed (fun i => decide (ts.getD i 0 < x)) ts.length hdown
  simp only [searchTimestamps, find_lt]
  rw [hfil, range_getLast_eq]
  set c := (List.range ts.length).countP (fun i => decide (ts.getD i 0 < x)) with hc
  by_cases h0 : c = 0
  · simp [h0]
  · simp only [h0, if_false]
    have hsucc : c - 1 + 1 = c := Nat.succ_pred_eq_of_pos (Nat.pos_of_ne_zero h0)
    rw [hsucc]

/-- On a non-descending timestamp list the `le` branch returns exactly the
positions with timestamp at most the bound. -/
theorem searchTimestamps_le_sorted (ts : List Int) (x : Int)
    (hs : List.Sorted (· ≤ ·) ts) :
    searchTimestamps ts (TimeOp.le x)
      = (List.range ts.length).filter (fun i => decide (ts.getD i 0 ≤ x)) := by
  have hdown : ∀ i j, i ≤ j → j < ts.length →
      (decide (ts.getD j 0 ≤ x)) = true → (decide (ts.getD i 0 ≤ x)) = true := by
    intro i j hij hj hpj
    exact decide_eq_true
      (le_trans (sorted_getD_mono ts hs i j hij hj) (of_decide_eq_true hpj))
  have hfil := filter_range_downclosed (fun i => decide (ts.getD i 0 ≤ x)) ts.length hdown
  simp only [searchTimestamps, find_le]
  rw [hfil, range_getLast_eq]
  set c := (List.range ts.length).countP (fun i => decide (ts.getD i 0 ≤ x)) with hc
  by_cases h0 : c = 0
  · simp [h0]
  · simp only [h0, if_false]
    have hsucc : c - 1 + 1 = c := Nat.succ_pred_eq_of_pos (Nat.pos_of_ne_zero h0)
    rw [hsucc]

/-- On a non-descending timestamp list the `gt` branch returns exactly the
positions with timestamp strictly above the bound. -/
theorem searchTimestamps_gt_sorted (ts : List Int) (x : Int)
    (hs : List.Sorted (· ≤ ·) ts) :
    searchTimestamps ts (TimeOp.gt x)
      = (List.range ts.length).filter (fun i => decide (x < ts.getD i 0)) := by
  have hup : ∀ i j, i ≤ j → j < ts.length →
      (decide (x < ts.getD i 0)) = true → (decide (x < ts.getD j 0)) = true := by
    intro i j hij hj hpi
    exact decide_eq_true
      (lt_of_lt_of_le (of_decide_eq_true hpi) (sorted_getD_mono ts hs i j hij hj))
  have hfil := filter_range_upclosed (fun i => decide (x < ts.getD i 0)) ts.length hup
  have hclen : (List.range ts.length).countP (fun i => decide (x < ts.getD i 0))
      ≤ ts.length := by
    have := List.countP_le_length (fun i => decide (x < ts.getD i 0))
      (l := List.range ts.length)
    simpa using this
  simp only [searchTimestamps, find_gt]
  rw [hfil]
  set c := (List.range ts.length).countP (fun i => decide (x < ts.getD i 0)) with hc
  cases hcc : c with
  | zero => simp [hcc]
  | succ k =>
    rw [range'_head_eq]
    have harith : ts.length - (ts.length - (k + 1)) = k + 1 := by omega
    show List.range' (ts.length - (k + 1)) (ts.length - (ts.length - (k + 1)))
        = List.range' (ts.length - (k + 1)) (k + 1)
    rw [harith]

/-- On a non-descending timestamp list the `ge` branch returns exactly the
positions with timestamp at least the bound. -/
theorem searchTimestamps_ge_sorted (ts : List Int) (x : Int)
    (hs : List.Sorted (· ≤ ·) ts) :
    searchTimestamps ts (TimeOp.ge x)
      = (List.range ts.length).filter (fun i => decide (x ≤ ts.getD i 0)) := by
  have hup : ∀ i j, i ≤ j → j < ts.length →
      (decide (x ≤ ts.getD i 0)) = true → (decide (x ≤ ts.getD j 0)) = true := by
    intro i j hij hj hpi
    exact decide_eq_true
      (le_trans (of_decide_eq_true hpi) (sorted_getD_mono ts hs i j hij hj))
  have hfil := filter_range_upclosed (fun i => decide (x ≤ ts.getD i 0)) ts.length hup
  have hclen : (List.range ts.length).countP (fun i => decide (x ≤ ts.getD i 0))
      ≤ ts.length := by
    have := List.countP_le_length (fun i => decide (x ≤ ts.getD i 0))
      (l := List.range ts.length)
    simpa using this
  simp only [searchTimestamps, find_ge]
  rw [hfil]
  set c := (List.range ts.length).countP (fun i => decide (x ≤ ts.getD i 0)) with hc
  cases hcc : c with
  | zero => simp [hcc]
  | succ k =>
    rw [range'_head_eq]
    have harith : ts.length - (ts.length - (k + 1)) = k + 1 := by omega
    show List.range' (ts.length - (k + 1)) (ts.length - (ts.length - (k + 1)))
        = List.range' (ts.length - (k + 1)) (k + 1)
    rw [harith]

/-- On a non-descending list the positions whose value equals `x` form the
consecutive block between the count of smaller values and the count of
values at most `x`. -/
theorem filter_beq_sorted (ts : List Int) (x : Int)
    (hs : List.Sorted (· ≤ ·) ts) :
    (List.range ts.length).filter (fun i => ts.getD i 0 == x)
      = List.range' ((List.range ts.length).countP (fun i => decide (ts.getD i 0 < x)))
          ((List.range ts.length).countP (fun i => decide (ts.getD i 0 ≤ x))
            - (List.range ts.length).countP (fun i => decide (ts.getD i 0 < x))) := by
  have hdownlt : ∀ i j, i ≤ j → j < ts.length →
      (decide (ts.getD j 0 < x)) = true → (decide (ts.getD i 0 < x)) = true := by
    intro i j hij hj hpj
    exact decide_eq_true
      (lt_of_le_of_lt (sorted_getD_mono ts hs i j hij hj) (of_decide_eq_true hpj))
  have hdownle : ∀ i j, i ≤ j → j < ts.length →
      (decide (ts.getD j 0 ≤ x)) = true → (decide (ts.getD i 0 ≤ x)) = true := by
    intro i j hij hj hpj
    exact decide_eq_true
      (le_trans (sorted_getD_mono ts hs i j hij hj) (of_decide_eq_true hpj))
  have hlt := filter_range_downclosed (fun i => decide (ts.getD i 0 < x)) ts.length hdownlt
  have hle := filter_range_downclosed (fun i => decide (ts.getD i 0 ≤ x)) ts.length hdownle
  set clt := (List.range ts.length).countP (fun i => decide (ts.getD i 0 < x)) with hcltdef
  set cle := (List.range ts.length).countP (fun i => decide (ts.getD i 0 ≤ x)) with hcledef
  have hltle : clt ≤ cle := by
    rw [hcltdef, hcledef]
    exact List.countP_mono_left
      (fun i _ hp => decide_eq_true (le_of_lt (of_decide_eq_true hp)))
  have hcle_n : cle ≤ ts.length := by
    rw [hcledef]
    have := List.countP_le_length (fun i => decide (ts.getD i 0 ≤ x))
      (l := List.range ts.length)
    simpa using this
  have hPlt : ∀ i, i < ts.length → ((decide (ts.getD i 0 < x)) = true ↔ i < clt) := by
    intro i hi
    constructor
    · intro hp
      have hmem : i ∈ (List.range ts.length).filter (fun i => decide (ts.getD i 0 < x)) :=
        List.mem_filter.mpr ⟨List.mem_range.mpr hi, hp⟩
      rw [hlt] at hmem
      exact List.mem_range.mp hmem
    · intro hp
      have hmem : i ∈ List.range clt := List.mem_range.mpr hp
      rw [← hlt] at hmem
      exact (List.mem_filter.mp hmem).2
  have hPle : ∀ i, i < ts.length → ((decide (ts.getD i 0 ≤ x)) = true ↔ i < cle) := by
    intro i hi
    constructor
    · intro hp
      have hmem : i ∈ (List.range ts.length).filter (fun i => decide (ts.getD i 0 ≤ x)) :=
        List.mem_filter.mpr ⟨List.mem_range.mpr hi, hp⟩
      rw [hle] at hmem
      exact List.mem_range.mp hmem
    · intro hp
      have hmem : i ∈ List.range cle := List.mem_range.mpr hp
      rw [← hle] at hmem
      exact (List.mem_filter.mp hmem).2
  refine sorted_lt_eq_of_mem_iff ((List.sorted_lt_range ts.length).filter _)
    (List.pairwise_lt_range' _ _) (fun z => ?_)
  rw [List.mem_filter, List.mem_range, List.mem_range'_1, beq_iff_eq]
  constructor
  · rintro ⟨hz, heq⟩
    have h1 : ¬ z < clt := by
      intro hcon
      have := (hPlt z hz).mpr hcon
      have := of_decide_eq_true this
      omega
    have h2 : z < cle := (hPle z hz).mp (decide_eq_true (le_of_eq heq))
    exact ⟨by omega, by omega⟩
  · rintro ⟨h1, h2⟩
    have hz : z < ts.length := by omega
    have hle2 : ts.getD z 0 ≤ x := of_decide_eq_true ((hPle z hz).mpr (by omega))
    have hlt2 : ¬ ts.getD z 0 < x := by
      intro hcon
      have := (hPlt z hz).mp (decide_eq_true hcon)
      omega
    exact ⟨hz, le_antisymm hle2 (not_lt.mp hlt2)⟩

/-- On a non-descending timestamp list the `eq` branch returns exactly the
positions whose timestamp equals the bound, duplicates included. -/
theorem searchTimestamps_eq_sorted (ts : List Int) (x : Int)
    (hs : List.Sorted (· ≤ ·) ts) :
    searchTimestamps ts (TimeOp.eq x)
      = (List.range ts.length).filter (fun i => ts.getD i 0 == x) := by
  have hfeq := filter_beq_sorted ts x hs
  have hltle : (List.range ts.length).countP (fun i => decide (ts.getD i 0 < x))
      ≤ (List.range ts.length).countP (fun i => decide (ts.getD i 0 ≤ x)) :=
    List.countP_mono_left
      (fun i _ hp => decide_eq_true (le_of_lt (of_decide_eq_true hp)))
  have hcle_n : (List.range ts.length).countP (fun i => decide (ts.getD i 0 ≤ x))
      ≤ ts.length := by
    have := List.countP_le_length (fun i => decide (ts.getD i 0 ≤ x))
      (l := List.range ts.length)
    simpa using this
  simp only [searchTimestamps, find_eq]
  rw [hfeq]
  set clt := (List.range ts.length).countP (fun i => decide (ts.getD i 0 < x)) with hcltdef
  set cle := (List.range ts.length).countP (fun i => decide (ts.getD i 0 ≤ x)) with hcledef
  cases hk : cle - clt with
  | zero => rfl
  | succ k =>
    rw [range'_head_eq]
    show collectEq ts x clt = List.range' clt (k + 1)
    rw [collectEq]
    have h1 : k ≤ ts.length - (clt + 1) := by omega
    have h2 : ∀ i, clt + 1 ≤ i → i < clt + 1 + k → (ts.getD i 0 == x) = true := by
      intro i hi1 hi2
      have hiF : i ∈ List.range' clt (k + 1) := List.mem_range'_1.mpr ⟨by omega, by omega⟩
      rw [← hk] at hiF
      rw [← hfeq] at hiF
      exact (List.mem_filter.mp hiF).2
    have h3 : k = ts.length - (clt + 1) ∨ (ts.getD (clt + 1 + k) 0 == x) = false := by
      by_cases hce : cle = ts.length
      · left; omega
      · right
        have hcen : cle < ts.length := lt_of_le_of_ne hcle_n hce
        have he : clt + 1 + k = cle := by omega
        rw [he]
        by_contra hcon
        have htrue : (ts.getD cle 0 == x) = true := by simpa using hcon
        have hmem : cle ∈ (List.range ts.length).filter (fun i => ts.getD i 0 == x) :=
          List.mem_filter.mpr ⟨List.mem_range.mpr hcen, htrue⟩
        rw [hfeq] at hmem
        have := List.mem_range'_1.mp hmem
        omega
    rw [takeWhile_range' _ k (ts.length - (clt + 1)) (clt + 1) h1 h2 h3]
    rw [← List.range'_succ clt k 1]

/-- Folding point insertions appends the point times to the timestamps,
whatever positions are used. -/
theorem foldl_insertPoint_timestamps (f : Nat × Point → Nat) :
    ∀ (l : List (Nat × Point)) (acc : Index),
      (l.foldl (fun a pr => insertPoint a (f pr) pr.2) acc).timestamps
        = acc.timestamps ++ l.map (fun pr => pr.2.time) := by
  intro l
  induction l with
  | nil => intro acc; simp
  | cons hd tl ih =>
    intro acc
    rw [List.foldl_cons, List.map_cons, ih (insertPoint acc (f hd) hd.2)]
    simp [insertPoint]

/-- Folding point insertions adds the point count to the item count,
whatever positions are used. -/
theorem foldl_insertPoint_num_items (f : Nat × Point → Nat) :
    ∀ (l : List (Nat × Point)) (acc : Index),
      (l.foldl (fun a pr => insertPoint a (f pr) pr.2) acc).num_items
        = acc.num_items + l.length := by
  intro l
  induction l with
  | nil => intro acc; simp
  | cons hd tl ih =>
    intro acc
    rw [List.foldl_cons, ih (insertPoint acc (f hd) hd.2)]
    simp [insertPoint]
    omega

/-- The timestamps of a built index are exactly the record times in input
order. -/
theorem build_timestamps (i : Index) (pts : List Point) :
    (i.build pts).timestamps = pts.map Point.time := by
  have h := foldl_insertPoint_timestamps Prod.fst pts.enum i.reset
  have hmap : pts.enum.map (fun pr => pr.2.time) = pts.map Point.time := by
    rw [show (fun pr : Nat × Point => pr.2.time) = (Point.time ∘ Prod.snd) from rfl,
      ← List.map_map, List.enum_map_snd]
  rw [Index.build]
  simpa [Index.reset, hmap] using h

/-- The item count of a built index is the number of records. -/
theorem build_num_items (i : Index) (pts : List Point) :
    (i.build pts).num_items = pts.length := by
  have h := foldl_insertPoint_num_items Prod.fst pts.enum i.reset
  rw [Index.build]
  simpa [Index.reset] using h

/-- C1: building from records in non-descending time order and searching
time == t returns exactly the positions whose record timestamp equals t,
duplicates included and empty when absent, with a complete result. -/
theorem build_search_time_eq_roundtrip (pts : List Point) (t : Int)
    (h : List.Sorted (· ≤ ·) (pts.map Point.time)) :
    ((Index.init true).build pts).search (Query.time (TimeOp.eq t))
      = ⟨(List.range pts.length).filter (fun p => (pts.map Point.time).getD p 0 == t),
          true, pts.length⟩ := by
  have hts := build_timestamps (Index.init true) pts
  have hn := build_num_items (Index.init true) pts
  show (⟨searchTimestamps ((Index.init true).build pts).timestamps (TimeOp.eq t), true,
      ((Index.init true).build pts).num_items⟩ : IndexResult) = _
  rw [hts, hn, searchTimestamps_eq_sorted _ _ h, List.length_map]

/-- Witness for C1 on the spec's example — timestamps 10, 20, 20 and
t = 20 give positions 1 and 2 with a complete result. -/
theorem build_search_time_eq_roundtrip_witness :
    ((Index.init true).build
        [⟨10, "m", [], []⟩, ⟨20, "m", [], []⟩, ⟨20, "m", [], []⟩]).search
        (Query.time (TimeOp.eq 20))
      = ⟨[1, 2], true, 3⟩ := by
  have h := build_search_time_eq_roundtrip
    [⟨10, "m", [], []⟩, ⟨20, "m", [], []⟩, ⟨20, "m", [], []⟩] 20 (by decide)
  rw [h]
  rfl

/-- C4: on an ascending timestamp sequence the four range operators return
exactly the positions satisfying the comparison — a closed prefix for
lt/le, a suffix for gt/ge, empty when nothing qualifies — all complete. -/
theorem search_time_range_queries (i : Index) (t : Int)
    (h : List.Sorted (· ≤ ·) i.timestamps) :
    i.search (Query.time (TimeOp.lt t))
      = ⟨(List.range i.timestamps.length).filter
          (fun p => decide (i.timestamps.getD p 0 < t)), true, i.num_items⟩
    ∧ i.search (Query.time (TimeOp.le t))
      = ⟨(List.range i.timestamps.length).filter
          (fun p => decide (i.timestamps.getD p 0 ≤ t)), true, i.num_items⟩
    ∧ i.search (Query.time (TimeOp.gt t))
      = ⟨(List.range i.timestamps.length).filter
          (fun p => decide (t < i.timestamps.getD p 0)), true, i.num_items⟩
    ∧ i.search (Query.time (TimeOp.ge t))
      = ⟨(List.range i.timestamps.length).filter
          (fun p => decide (t ≤ i.timestamps.getD p 0)), true, i.num_items⟩ := by
  refine ⟨?_, ?_, ?_, ?_⟩
  · show (⟨searchTimestamps i.timestamps (TimeOp.lt t), true, i.num_items⟩ : IndexResult) = _
    rw [searchTimestamps_lt_sorted _ _ h]
  · show (⟨searchTimestamps i.timestamps (TimeOp.le t), true, i.num_items⟩ : IndexResult) = _
    rw [searchTimestamps_le_sorted _ _ h]
  · show (⟨searchTimestamps i.timestamps (TimeOp.gt t), true, i.num_items⟩ : IndexResult) = _
    rw [searchTimestamps_gt_sorted _ _ h]
  · show (⟨searchTimestamps i.timestamps (TimeOp.ge t), true, i.num_items⟩ : IndexResult) = _
    rw [searchTimestamps_ge_sorted _ _ h]

/-- Witness for C4 on timestamps 10, 20, 20 at t = 20: lt gives the prefix
of one, gt gives the empty suffix. -/
theorem search_time_range_queries_witness :
    (Index.mk 3 [] [] [] [10, 20, 20] true).search (Query.time (TimeOp.lt 20))
      = ⟨[0], true, 3⟩
    ∧ (Index.mk 3 [] [] [] [10, 20, 20] true).search (Query.time (TimeOp.gt 20))
      = ⟨[], true, 3⟩ := by
  have h := search_time_range_queries (Index.mk 3 [] [] [] [10, 20, 20] true) 20 (by decide)
  refine ⟨?_, ?_⟩
  · rw [h.1]; rfl
  · rw [h.2.2.1]; rfl

/-- Rewriting a posting list faults exactly when some position is missing
from the map. -/
theorem lookupAll_eq_none_iff (u : List (Nat × Nat)) (l : List Nat) :
    lookupAll u l = none ↔ ∃ p ∈ l, dictGet u p = none := by
  induction l with
  | nil => simp [lookupAll]
  | cons hd tl ih =>
    simp only [lookupAll]
    cases hhd : dictGet u hd with
    | none =>
      cases htl : lookupAll u tl with
      | none =>
        constructor
        · intro _; exact ⟨hd, List.mem_cons_self hd tl, hhd⟩
        · intro _; rfl
      | some vs =>
        constructor
        · intro _; exact ⟨hd, List.mem_cons_self hd tl, hhd⟩
        · intro _; rfl
    | some v =>
      cases htl : lookupAll u tl with
      | none =>
        rw [htl] at ih
        constructor
        · intro _
          rcases ih.mp rfl with ⟨p, hp1, hp2⟩
          exact ⟨p, List.mem_cons_of_mem hd hp1, hp2⟩
        · intro _; rfl
      | some vs =>
        rw [htl] at ih
        constructor
        · intro hcon; exact Option.noConfusion hcon
        · rintro ⟨p, hp1, hp2⟩
          rcases List.mem_cons.mp hp1 with rfl | hp3
          · rw [hhd] at hp2; exact Option.noConfusion hp2
          · exact Option.noConfusion (ih.mpr ⟨p, hp3, hp2⟩)

/-- When every position of the list is in the map, rewriting succeeds and
maps each position through the map. -/
theorem lookupAll_eq_map (u : List (Nat × Nat)) (l : List Nat)
    (h : ∀ p ∈ l, (dictGet u p).isSome) :
    lookupAll u l = some (l.map (fun p => (dictGet u p).getD 0)) := by
  induction l with
  | nil => simp [lookupAll]
  | cons hd tl ih =>
    simp only [lookupAll]
    rcases Option.isSome_iff_exists.mp (h hd (List.mem_cons_self hd tl)) with ⟨v, hv⟩
    rw [hv, ih (fun p hp => h p (List.mem_cons_of_mem hd hp))]
    simp [hv]

/-- `_update_fields` faults exactly when some referenced position is
missing from the map. -/
theorem updateFields_eq_none_iff (m : List (String × List Nat)) (u : List (Nat × Nat)) :
    updateFields m u = none ↔ ∃ kv ∈ m, ∃ p ∈ kv.2, dictGet u p = none := by
  induction m with
  | nil => simp [updateFields]
  | cons hd tl ih =>
    obtain ⟨k, l⟩ := hd
    simp only [updateFields]
    cases hl : lookupAll u l with
    | none =>
      rcases (lookupAll_eq_none_iff u l).mp hl with ⟨p, hp1, hp2⟩
      constructor
      · intro _; exact ⟨(k, l), List.mem_cons_self _ _, p, hp1, hp2⟩
      · intro _; rfl
    | some l2 =>
      cases htl : updateFields tl u with
      | none =>
        rw [htl] at ih
        constructor
        · intro _
          rcases ih.mp rfl with ⟨kv, hkv, p, hp1, hp2⟩
          exact ⟨kv, List.mem_cons_of_mem _ hkv, p, hp1, hp2⟩
        · intro _; rfl
      | some rest2 =>
        rw [htl] at ih
        constructor
        · intro hcon; exact Option.noConfusion hcon
        · rintro ⟨kv, hkv, p, hp1, hp2⟩
          rcases List.mem_cons.mp hkv with rfl | hkv2
          · exact Option.noConfusion
              ((lookupAll_eq_none_iff u l).mpr ⟨p, hp1, hp2⟩ ▸ hl)
          · exact Option.noConfusion (ih.mpr ⟨kv, hkv2, p, hp1, hp2⟩)

/-- When the map covers every referenced position, `_update_fields` maps
every posting list pointwise through the map, keeping all keys. -/
theorem updateFields_eq_map (m : List (String × List Nat)) (u : List (Nat × Nat))
    (h : ∀ kv ∈ m, ∀ p ∈ kv.2, (dictGet u p).isSome) :
    updateFields m u
      = some (m.map (fun kv => (kv.1, kv.2.map (fun p => (dictGet u p).getD 0)))) := by
  induction m with
  | nil => simp [updateFields]
  | cons hd tl ih =>
    obtain ⟨k, l⟩ := hd
    simp only [updateFields]
    rw [lookupAll_eq_map u l (fun p hp => h (k, l) (List.mem_cons_self _ _) p hp),
      ih (fun kv hkv p hp => h kv (List.mem_cons_of_mem _ hkv) p hp)]
    rfl

/-- `_update_measurements` faults exactly when some referenced position is
missing from the map. -/
theorem updateMeasurements_eq_none_iff (m : List (String × List Nat))
    (u : List (Nat × Nat)) :
    updateMeasurements m u = none ↔ ∃ kv ∈ m, ∃ p ∈ kv.2, dictGet u p = none := by
  induction m with
  | nil => simp [updateMeasurements]
  | cons hd tl ih =>
    obtain ⟨k, l⟩ := hd
    simp only [updateMeasurements]
    cases hl : lookupAll u l with
    | none =>
      rcases (lookupAll_eq_none_iff u l).mp hl with ⟨p, hp1, hp2⟩
      constructor
      · intro _; exact ⟨(k, l), List.mem_cons_self _ _, p, hp1, hp2⟩
      · intro _; rfl
    | some l2 =>
      cases htl : updateMeasurements tl u with
      | none =>
        rw [htl] at ih
        constructor
        · intro _
          rcases ih.mp rfl with ⟨kv, hkv, p, hp1, hp2⟩
          exact ⟨kv, List.mem_cons_of_mem _ hkv, p, hp1, hp2⟩
        · intro _; rfl
      | some rest2 =>
        rw [htl] at ih
        constructor
        · intro hcon
          by_cases he : l2.isEmpty <;> simp [he] at hcon
        · rintro ⟨kv, hkv, p, hp1, hp2⟩
          rcases List.mem_cons.mp hkv with rfl | hkv2
          · exact Option.noConfusion
              ((lookupAll_eq_none_iff u l).mpr ⟨p, hp1, hp2⟩ ▸ hl)
          · exact Option.noConfusion (ih.mpr ⟨kv, hkv2, p, hp1, hp2⟩)

/-- When the map covers every referenced position and no posting list is
empty, `_update_measurements` maps every posting list pointwise through
the map, keeping all keys. -/
theorem updateMeasurements_eq_map (m : List (String × List Nat)) (u : List (Nat × Nat))
    (h : ∀ kv ∈ m, ∀ p ∈ kv.2, (dictGet u p).isSome)
    (hne : ∀ kv ∈ m, kv.2 ≠ []) :
    updateMeasurements m u
      = some (m.map (fun kv => (kv.1, kv.2.map (fun p => (dictGet u p).getD 0)))) := by
  induction m with
  | nil => simp [updateMeasurements]
  | cons hd tl ih =>
    obtain ⟨k, l⟩ := hd
    simp only [updateMeasurements]
    rw [lookupAll_eq_map u l (fun p hp => h (k, l) (List.mem_cons_self _ _) p hp),
      ih (fun kv hkv p hp => h kv (List.mem_cons_of_mem _ hkv) p hp)
        (fun kv hkv => hne kv (List.mem_cons_of_mem _ hkv))]
    have hl : l ≠ [] := hne (k, l) (List.mem_cons_self _ _)
    have : (l.map (fun p => (dictGet u p).getD 0)).isEmpty = false := by
      cases l with
      | nil => exact absurd rfl hl
      | cons a as => rfl
    simp [this]

/-- `_update_tags` faults exactly when some referenced position is missing
from the map. -/
theorem updateTags_eq_none_iff (m : List (String × List (String × List Nat)))
    (u : List (Nat × Nat)) :
    updateTags m u = none
      ↔ ∃ kv ∈ m, ∃ vv ∈ kv.2, ∃ p ∈ vv.2, dictGet u p = none := by
  induction m with
  | nil => simp [updateTags]
  | cons hd tl ih =>
    obtain ⟨k, vm⟩ := hd
    simp only [updateTags]
    cases hvm : updateFields vm u with
    | none =>
      rcases (updateFields_eq_none_iff vm u).mp hvm with ⟨vv, hvv, p, hp1, hp2⟩
      constructor
      · intro _; exact ⟨(k, vm), List.mem_cons_self _ _, vv, hvv, p, hp1, hp2⟩
      · intro _; rfl
    | some vm2 =>
      cases htl : updateTags tl u with
      | none =>
        rw [htl] at ih
        constructor
        · intro _
          rcases ih.mp rfl with ⟨kv, hkv, vv, hvv, p, hp1, hp2⟩
          exact ⟨kv, List.mem_cons_of_mem _ hkv, vv, hvv, p, hp1, hp2⟩
        · intro _; rfl
      | some rest2 =>
        rw [htl] at ih
        constructor
        · intro hcon; exact Option.noConfusion hcon
        · rintro ⟨kv, hkv, vv, hvv, p, hp1, hp2⟩
          rcases List.mem_cons.mp hkv with rfl | hkv2
          · exact Option.noConfusion
              ((updateFields_eq_none_iff vm u).mpr ⟨vv, hvv, p, hp1, hp2⟩ ▸ hvm)
          · exact Option.noConfusion (ih.mpr ⟨kv, hkv2, vv, hvv, p, hp1, hp2⟩)

/-- When the map covers every referenced position, `_update_tags` maps
every inner posting list pointwise through the map, keeping all keys. -/
theorem updateTags_eq_map (m : List (String × List (String × List Nat)))
    (u : List (Nat × Nat))
    (h : ∀ kv ∈ m, ∀ vv ∈ kv.2, ∀ p ∈ vv.2, (dictGet u p).isSome) :
    updateTags m u
      = some (m.map (fun kv => (kv.1, kv.2.map
          (fun vv => (vv.1, vv.2.map (fun p => (dictGet u p).getD 0)))))) := by
  induction m with
  | nil => simp [updateTags]
  | cons hd tl ih =>
    obtain ⟨k, vm⟩ := hd
    simp only [updateTags]
    rw [updateFields_eq_map vm u (fun vv hvv p hp => h (k, vm) (List.mem_cons_self _ _) vv hvv p hp),
      ih (fun kv hkv vv hvv p hp => h kv (List.mem_cons_of_mem _ hkv) vv hvv p hp)]
    rfl

/-- A position is referenced by the index when it occurs in some posting
list of the measurements, tags or fields collections. -/
def Index.referenced (i : Index) (p : Nat) : Prop :=
  (∃ kv ∈ i.measurements, p ∈ kv.2)
    ∨ (∃ kv ∈ i.tags, ∃ vv ∈ kv.2, p ∈ vv.2)
    ∨ (∃ kv ∈ i.fields, p ∈ kv.2)

/-- C8: update propagates a lookup fault exactly when some position
referenced by a posting collection is absent from the position map; when
the map covers every referenced position (and no stored posting list is
empty), update succeeds and replaces every position by its image under the
map. -/
theorem update_fault_iff (i : Index) (u : List (Nat × Nat)) :
    (i.update u = none ↔ ∃ p, Index.referenced i p ∧ dictGet u p = none)
    ∧ ((∀ p, Index.referenced i p → (dictGet u p).isSome) →
        (∀ kv ∈ i.measurements, kv.2 ≠ []) →
        i.update u = some { i with
          measurements := i.measurements.map
            (fun kv => (kv.1, kv.2.map (fun p => (dictGet u p).getD 0))),
          tags := i.tags.map (fun kv => (kv.1, kv.2.map
            (fun vv => (vv.1, vv.2.map (fun p => (dictGet u p).getD 0))))),
          fields := i.fields.map
            (fun kv => (kv.1, kv.2.map (fun p => (dictGet u p).getD 0))) }) := by
  constructor
  · cases hms : updateMeasurements i.measurements u with
    | none =>
      rcases (updateMeasurements_eq_none_iff _ _).mp hms with ⟨kv, hkv, p, hp1, hp2⟩
      constructor
      · intro _
        exact ⟨p, Or.inl ⟨kv, hkv, hp1⟩, hp2⟩
      · intro _
        simp [Index.update, hms]
    | some ms =>
      cases htg : updateTags i.tags u with
      | none =>
        rcases (updateTags_eq_none_iff _ _).mp htg with ⟨kv, hkv, vv, hvv, p, hp1, hp2⟩
        constructor
        · intro _
          exact ⟨p, Or.inr (Or.inl ⟨kv, hkv, vv, hvv, hp1⟩), hp2⟩
        · intro _
          simp [Index.update, hms, htg]
      | some tg =>
        cases hfs : updateFields i.fields u with
        | none =>
          rcases (updateFields_eq_none_iff _ _).mp hfs with ⟨kv, hkv, p, hp1, hp2⟩
          constructor
          · intro _
            exact ⟨p, Or.inr (Or.inr ⟨kv, hkv, hp1⟩), hp2⟩
          · intro _
            simp [Index.update, hms, htg, hfs]
        | some fs =>
          constructor
          · intro hcon
            simp [Index.update, hms, htg, hfs] at hcon
          · rintro ⟨p, href, hnone⟩
            rcases href with ⟨kv, hkv, hp1⟩ | ⟨kv, hkv, vv, hvv, hp1⟩ | ⟨kv, hkv, hp1⟩
            · exact Option.noConfusion
                ((updateMeasurements_eq_none_iff _ _).mpr ⟨kv, hkv, p, hp1, hnone⟩ ▸ hms)
            · exact Option.noConfusion
                ((updateTags_eq_none_iff _ _).mpr ⟨kv, hkv, vv, hvv, p, hp1, hnone⟩ ▸ htg)
            · exact Option.noConfusion
                ((updateFields_eq_none_iff _ _).mpr ⟨kv, hkv, p, hp1, hnone⟩ ▸ hfs)
  · intro hcov hne
    have hms := updateMeasurements_eq_map i.measurements u
      (fun kv hkv p hp => hcov p (Or.inl ⟨kv, hkv, hp⟩)) hne
    have htg := updateTags_eq_map i.tags u
      (fun kv hkv vv hvv p hp => hcov p (Or.inr (Or.inl ⟨kv, hkv, vv, hvv, hp⟩)))
    have hfs := updateFields_eq_map i.fields u
      (fun kv hkv p hp => hcov p (Or.inr (Or.inr ⟨kv, hkv, hp⟩)))
    simp [Index.update, hms, htg, hfs]

/-- Witness for C8: a one-measurement index under a covering map is
rewritten position-by-position. -/
theorem update_fault_iff_witness :
    (Index.mk 1 [] [] [("m", [0])] [5] true).update [(0, 7)]
      = some (Index.mk 1 [] [] [("m", [7])] [5] true) := by
  have hcov : ∀ p, Index.referenced (Index.mk 1 [] [] [("m", [0])] [5] true) p →
      (dictGet [(0, 7)] p).isSome := by
    intro p hp
    rcases hp with ⟨kv, hkv, hp2⟩ | ⟨kv, hkv, _⟩ | ⟨kv, hkv, _⟩
    · have hkv2 := List.mem_singleton.mp hkv
      subst hkv2
      have hp3 := List.mem_singleton.mp hp2
      subst hp3
      rfl
    · exact absurd hkv (List.not_mem_nil kv)
    · exact absurd hkv (List.not_mem_nil kv)
  have hne : ∀ kv ∈ (Index.mk 1 [] [] [("m", [0])] [5] true).measurements,
      kv.2 ≠ [] := by
    intro kv hkv
    have hkv2 := List.mem_singleton.mp hkv
    subst hkv2
    simp
  have h := (update_fault_iff (Index.mk 1 [] [] [("m", [0])] [5] true) [(0, 7)]).2
    hcov hne
  rw [h]
  rfl

/-- Dict lookup on an insertion-ordered association list (`d[k]` /
`k in d`). -/
def assocGet {α : Type} (m : List (String × α)) (k : String) : Option α :=
  (m.find? (fun kv => kv.1 == k)).map Prod.snd

/-- Lookup steps through the head entry. -/
theorem assocGet_cons {α : Type} (k0 : String) (v : α) (rest : List (String × α))
    (k : String) :
    assocGet ((k0, v) :: rest) k = if k0 = k then some v else assocGet rest k := by
  by_cases h : k0 = k <;> simp [assocGet, List.find?_cons, h]

/-- Lookup of an absent key gives none. -/
theorem assocGet_eq_none {α : Type} (m : List (String × α)) (k : String)
    (h : k ∉ m.map Prod.fst) : assocGet m k = none := by
  induction m with
  | nil => rfl
  | cons hd tl ih =>
    obtain ⟨k0, v⟩ := hd
    rw [assocGet_cons]
    simp only [List.map_cons, List.mem_cons] at h
    push_neg at h
    rw [if_neg (fun hh => h.1 hh.symm)]
    exact ih h.2

/-- A found entry is a member with the looked-up key. -/
theorem assocGet_mem {α : Type} (m : List (String × α)) (k : String) (v : α)
    (h : assocGet m k = some v) : (k, v) ∈ m := by
  induction m with
  | nil => exact Option.noConfusion h
  | cons hd tl ih =>
    obtain ⟨k0, v0⟩ := hd
    rw [assocGet_cons] at h
    by_cases hk : k0 = k
    · rw [if_pos hk] at h
      subst hk
      obtain rfl := Option.some.inj h
      exact List.mem_cons_self _ _
    · rw [if_neg hk] at h
      exact List.mem_cons_of_mem _ (ih h)

/-- Lookup in a transform-then-drop rebuild of a dict with distinct keys:
the per-key transform applied under the drop condition. -/
theorem assocGet_map_filter {α β : Type} (t : α → β) (q : β → Bool)
    (m : List (String × α)) (k : String) (hkeys : (m.map Prod.fst).Nodup) :
    assocGet ((m.map (fun kv => (kv.1, t kv.2))).filter (fun kv => q kv.2)) k
      = (assocGet m k).bind (fun a => if q (t a) then some (t a) else none) := by
  induction m with
  | nil => rfl
  | cons hd tl ih =>
    obtain ⟨k0, a0⟩ := hd
    simp only [List.map_cons] at hkeys
    have hk0nt : k0 ∉ tl.map Prod.fst := (List.nodup_cons.mp hkeys).1
    have hkeys_tl : (tl.map Prod.fst).Nodup := (List.nodup_cons.mp hkeys).2
    rw [List.map_cons, List.filter_cons, assocGet_cons]
    by_cases hq : q (t a0)
    · simp only [hq, if_true, assocGet_cons]
      by_cases hk : k0 = k
      · simp [hk, hq]
      · simp only [hk, if_false]
        exact ih hkeys_tl
    · simp only [hq, Bool.false_eq_true, if_false]
      by_cases hk : k0 = k
      · subst hk
        rw [if_pos rfl]
        have hnone : assocGet ((tl.map (fun kv => (kv.1, t kv.2))).filter
            (fun kv => q kv.2)) k0 = none := by
          apply assocGet_eq_none
          intro hmem
          apply hk0nt
          rcases List.mem_map.mp hmem with ⟨kv, hkv1, hkv2⟩
          rcases List.mem_filter.mp hkv1 with ⟨hkv3, _⟩
          rcases List.mem_map.mp hkv3 with ⟨kv0, hkv4, hkv5⟩
          subst hkv5
          subst hkv2
          exact List.mem_map.mpr ⟨kv0, hkv4, rfl⟩
        rw [hnone]
        simp [hq]
      · rw [if_neg hk]
        exact ih hkeys_tl

/-- Keys after a posting insertion: the old keys plus possibly the new
key. -/
theorem mem_keys_addPosting (m : List (String × List Nat)) (k : String) (idx : Nat)
    (k2 : String) :
    k2 ∈ (addPosting m k idx).map Prod.fst ↔ k2 ∈ m.map Prod.fst ∨ k2 = k := by
  induction m with
  | nil => simp [addPosting]
  | cons hd tl ih =>
    obtain ⟨k0, l0⟩ := hd
    by_cases h : k0 = k
    · simp [addPosting, h]
      tauto
    · simp [addPosting, h, ih]
      tauto

/-- A posting insertion keeps the dict keys distinct. -/
theorem keys_nodup_addPosting (m : List (String × List Nat)) (k : String) (idx : Nat)
    (h : (m.map Prod.fst).Nodup) :
    ((addPosting m k idx).map Prod.fst).Nodup := by
  induction m with
  | nil => simp [addPosting]
  | cons hd tl ih =>
    obtain ⟨k0, l0⟩ := hd
    simp only [List.map_cons, List.nodup_cons] at h
    by_cases hk : k0 = k
    · simp only [addPosting, if_pos hk, List.map_cons, List.nodup_cons]
      exact h
    · simp only [addPosting, if_neg hk, List.map_cons, List.nodup_cons]
      refine ⟨?_, ih h.2⟩
      intro hmem
      rcases (mem_keys_addPosting tl k idx k0).mp hmem with h1 | h1
      · exact h.1 h1
      · exact hk h1

/-- Keys after a tag insertion: the old keys plus possibly the new key. -/
theorem mem_keys_addTag (m : List (String × List (String × List Nat)))
    (k v : String) (idx : Nat) (k2 : String) :
    k2 ∈ (addTag m k v idx).map Prod.fst ↔ k2 ∈ m.map Prod.fst ∨ k2 = k := by
  induction m with
  | nil => simp [addTag]
  | cons hd tl ih =>
    obtain ⟨k0, vm⟩ := hd
    by_cases h : k0 = k
    · simp [addTag, h]
      tauto
    · simp [addTag, h, ih]
      tauto

/-- A tag insertion keeps the outer dict keys distinct. -/
theorem keys_nodup_addTag (m : List (String × List (String × List Nat)))
    (k v : String) (idx : Nat) (h : (m.map Prod.fst).Nodup) :
    ((addTag m k v idx).map Prod.fst).Nodup := by
  induction m with
  | nil => simp [addTag]
  | cons hd tl ih =>
    obtain ⟨k0, vm⟩ := hd
    simp only [List.map_cons, List.nodup_cons] at h
    by_cases hk : k0 = k
    · simp only [addTag, if_pos hk, List.map_cons, List.nodup_cons]
      exact h
    · simp only [addTag, if_neg hk, List.map_cons, List.nodup_cons]
      refine ⟨?_, ih h.2⟩
      intro hmem
      rcases (mem_keys_addTag tl k v idx k0).mp hmem with h1 | h1
      · exact h.1 h1
      · exact hk h1

/-- A tag insertion keeps every inner dict's keys distinct. -/
theorem inner_nodup_addTag (m : List (String × List (String × List Nat)))
    (k v : String) (idx : Nat) (h : ∀ kv ∈ m, (kv.2.map Prod.fst).Nodup) :
    ∀ kv ∈ addTag m k v idx, (kv.2.map Prod.fst).Nodup := by
  induction m with
  | nil =>
    intro kv hkv
    simp only [addTag, List.mem_singleton] at hkv
    subst hkv
    simp
  | cons hd tl ih =>
    obtain ⟨k0, vm⟩ := hd
    intro kv hkv
    by_cases hk : k0 = k
    · rw [show addTag ((k0, vm) :: tl) k v idx = (k0, addPosting vm v idx) :: tl by
        simp [addTag, hk]] at hkv
      rcases List.mem_cons.mp hkv with rfl | hkv2
      · exact keys_nodup_addPosting vm v idx (h (k0, vm) (List.mem_cons_self _ _))
      · exact h kv (List.mem_cons_of_mem _ hkv2)
    · rw [show addTag ((k0, vm) :: tl) k v idx = (k0, vm) :: addTag tl k v idx by
        simp [addTag, hk]] at hkv
      rcases List.mem_cons.mp hkv with rfl | hkv2
      · exact h (k0, vm) (List.mem_cons_self _ _)
      · exact ih (fun kv2 hkv2b => h kv2 (List.mem_cons_of_mem _ hkv2b)) kv hkv2

/-- The key-distinctness invariant of the four dict collections. -/
def KeysWF (i : Index) : Prop :=
  (i.measurements.map Prod.fst).Nodup ∧ (i.fields.map Prod.fst).Nodup
    ∧ (i.tags.map Prod.fst).Nodup ∧ ∀ kv ∈ i.tags, (kv.2.map Prod.fst).Nodup

/-- Indexing a record's fields keeps the field keys distinct. -/
theorem keys_nodup_insertFields (idx : Nat) :
    ∀ (keys : List String) (m : List (String × List Nat)),
      (m.map Prod.fst).Nodup → ((insertFields m idx keys).map Prod.fst).Nodup := by
  intro keys
  induction keys with
  | nil => intro m h; exact h
  | cons k ks ih =>
    intro m h
    exact ih (addPosting m k idx) (keys_nodup_addPosting m k idx h)

/-- Indexing a record's tags keeps the outer tag keys distinct. -/
theorem keys_nodup_insertTags (idx : Nat) :
    ∀ (tags : List (String × String)) (m : List (String × List (String × List Nat))),
      (m.map Prod.fst).Nodup → ((insertTags m idx tags).map Prod.fst).Nodup := by
  intro tags
  induction tags with
  | nil => intro m h; exact h
  | cons kv kvs ih =>
    intro m h
    exact ih (addTag m kv.1 kv.2 idx) (keys_nodup_addTag m kv.1 kv.2 idx h)

/-- Indexing a record's tags keeps every inner tag-value dict's keys
distinct. -/
theorem inner_nodup_insertTags (idx : Nat) :
    ∀ (tags : List (String × String)) (m : List (String × List (String × List Nat))),
      (∀ kv ∈ m, (kv.2.map Prod.fst).Nodup) →
      ∀ kv ∈ insertTags m idx tags, (kv.2.map Prod.fst).Nodup := by
  intro tags
  induction tags with
  | nil => intro m h; exact h
  | cons kv0 kvs ih =>
    intro m h
    exact ih (addTag m kv0.1 kv0.2 idx) (inner_nodup_addTag m kv0.1 kv0.2 idx h)

/-- Inserting one point preserves key distinctness everywhere. -/
theorem keysWF_insertPoint (i : Index) (idx : Nat) (p : Point) (h : KeysWF i) :
    KeysWF (insertPoint i idx p) := by
  obtain ⟨h1, h2, h3, h4⟩ := h
  exact ⟨keys_nodup_addPosting _ _ _ h1,
    keys_nodup_insertFields idx p.fields i.fields h2,
    keys_nodup_insertTags idx p.tags i.tags h3,
    inner_nodup_insertTags idx p.tags i.tags h4⟩

/-- Folding point insertions preserves key distinctness. -/
theorem keysWF_foldl (f : Nat × Point → Nat) :
    ∀ (l : List (Nat × Point)) (acc : Index), KeysWF acc →
      KeysWF (l.foldl (fun a pr => insertPoint a (f pr) pr.2) acc) := by
  intro l
  induction l with
  | nil => intro acc h; exact h
  | cons hd tl ih =>
    intro acc h
    exact ih (insertPoint acc (f hd) hd.2) (keysWF_insertPoint acc (f hd) hd.2 h)

/-- Every built index has distinct keys in all collections. -/
theorem build_keysWF (i : Index) (pts : List Point) : KeysWF (i.build pts) := by
  have h := keysWF_foldl Prod.fst pts.enum i.reset
  simp only [Index.build]
  exact h ⟨List.nodup_nil, List.nodup_nil, List.nodup_nil, by intro kv hkv; cases hkv⟩

/-- The position-filtered enumeration projected to values equals the
value lookups of the filtered index range. -/
theorem enumFrom_filter_map_snd (P : Nat → Bool) :
    ∀ (ts : List Int) (s : Nat),
      ((List.enumFrom s ts).filter (fun pr => P pr.1)).map Prod.snd
        = ((List.range' s ts.length).filter P).map (fun p => ts.getD (p - s) 0) := by
  intro ts
  induction ts with
  | nil => intro s; rfl
  | cons hd tl ih =>
    intro s
    rw [show List.enumFrom s (hd :: tl) = (s, hd) :: List.enumFrom (s + 1) tl from rfl,
      List.filter_cons, List.length_cons, List.range'_succ s tl.length 1,
      List.filter_cons]
    have htail : ((List.range' (s + 1) tl.length).filter P).map
        (fun p => (hd :: tl).getD (p - s) 0)
        = ((List.range' (s + 1) tl.length).filter P).map
          (fun p => tl.getD (p - (s + 1)) 0) := by
      apply List.map_congr_left
      intro p hp
      have hmem := List.mem_range'_1.mp (List.mem_filter.mp hp).1
      have hps : s + 1 ≤ p := hmem.1
      have harith : p - s = (p - (s + 1)) + 1 := by omega
      rw [harith]
      rfl
    by_cases hP : P s
    · simp only [hP, if_true, List.map_cons]
      rw [ih (s + 1), htail]
      have hhd : (hd :: tl).getD (s - s) 0 = hd := by
        rw [Nat.sub_self]
        rfl
      rw [hhd]
    · simp only [hP, Bool.false_eq_true, if_false]
      rw [ih (s + 1), htail]

/-- `_remove_timestamps` keeps, in order, the timestamp of every position
outside the removed set. -/
theorem removeTimestamps_spec (ts : List Int) (S : List Nat) :
    removeTimestamps ts S
      = ((List.range ts.length).filter (fun p => !(S.contains p))).map
          (fun p => ts.getD p 0) := by
  have h := enumFrom_filter_map_snd (fun p => !(S.contains p)) ts 0
  simp only [removeTimestamps]
  rw [show ts.enum = List.enumFrom 0 ts from rfl, h, List.range_eq_range']
  apply List.map_congr_left
  intro p _
  rw [Nat.sub_zero]

/-- Claim-side per-key effect of remove: the posting list with removed
positions filtered out, the key dropped when nothing survives. -/
def removedPostingSpec (l S : List Nat) : Option (List Nat) :=
  if !(l.filter (fun x => !(S.contains x))).isEmpty then
    some (l.filter (fun x => !(S.contains x)))
  else none

/-- C6: removing a position set from a built index deletes exactly those
timestamp entries, filters every posting list (dropping keys that become
empty) without renumbering surviving positions, and decrements the item
count by exactly the size of the set. -/
theorem remove_filters_without_renumbering (L : List Point) (S : List Nat)
    (hS : S.Nodup)
    (hb : ∀ s ∈ S, s < ((Index.init true).build L).num_items) :
    (((Index.init true).build L).remove S).timestamps
        = ((List.range ((Index.init true).build L).timestamps.length).filter
            (fun p => !(S.contains p))).map
            (fun p => ((Index.init true).build L).timestamps.getD p 0)
    ∧ (∀ k, assocGet (((Index.init true).build L).remove S).measurements k
        = (assocGet ((Index.init true).build L).measurements k).bind
            (fun l => removedPostingSpec l S))
    ∧ (∀ k, assocGet (((Index.init true).build L).remove S).fields k
        = (assocGet ((Index.init true).build L).fields k).bind
            (fun l => removedPostingSpec l S))
    ∧ (∀ k k2, ((assocGet (((Index.init true).build L).remove S).tags k).bind
            (fun vm => assocGet vm k2))
        = ((assocGet ((Index.init true).build L).tags k).bind
            (fun vm => assocGet vm k2)).bind (fun l => removedPostingSpec l S))
    ∧ (((Index.init true).build L).remove S).num_items + S.length
        = ((Index.init true).build L).num_items := by
  obtain ⟨hkm, hkf, hkt, hki⟩ := build_keysWF (Index.init true) L
  refine ⟨?_, ?_, ?_, ?_, ?_⟩
  · exact removeTimestamps_spec _ S
  · intro k
    exact assocGet_map_filter (fun l => l.filter (fun x => !(S.contains x)))
      (fun l2 => !l2.isEmpty) ((Index.init true).build L).measurements k hkm
  · intro k
    exact assocGet_map_filter (fun l => l.filter (fun x => !(S.contains x)))
      (fun l2 => !l2.isEmpty) ((Index.init true).build L).fields k hkf
  · intro k k2
    have houter : assocGet (((Index.init true).build L).remove S).tags k
        = (assocGet ((Index.init true).build L).tags k).bind
          (fun vm => if !(removePostings vm S).isEmpty then
            some (removePostings vm S) else none) :=
      assocGet_map_filter (fun vm => removePostings vm S)
        (fun vm2 => !vm2.isEmpty) ((Index.init true).build L).tags k hkt
    rw [houter]
    cases hvm : assocGet ((Index.init true).build L).tags k with
    | none => rfl
    | some vm =>
      have hinner : (vm.map Prod.fst).Nodup :=
        hki (k, vm) (assocGet_mem _ _ _ hvm)
      simp only [Option.some_bind]
      by_cases hne : (removePostings vm S).isEmpty
      · simp only [hne, Bool.not_true, Bool.false_eq_true, if_false, Option.none_bind]
        cases hl : assocGet vm k2 with
        | none => rfl
        | some l =>
          simp only [Option.some_bind, removedPostingSpec]
          have hfl : (l.filter (fun x => !(S.contains x))).isEmpty = true := by
            by_contra hcon
            have hfl2 : l.filter (fun x => !(S.contains x)) ≠ [] := by
              intro hx
              rw [hx] at hcon
              exact hcon rfl
            have hmem : (k2, l.filter (fun x => !(S.contains x)))
                ∈ removePostings vm S := by
              apply List.mem_filter.mpr
              constructor
              · exact List.mem_map.mpr ⟨(k2, l), assocGet_mem _ _ _ hl, rfl⟩
              · simpa using hfl2
            have : removePostings vm S ≠ [] := by
              intro hx
              rw [hx] at hmem
              cases hmem
            exact this (List.isEmpty_iff.mp hne)
          rw [hfl]
          rfl
      · simp only [Bool.not_eq_true] at hne
        simp only [hne, Bool.not_false, if_true, Option.some_bind]
        exact assocGet_map_filter (fun l => l.filter (fun x => !(S.contains x)))
          (fun l2 => !l2.isEmpty) vm k2 hinner
  · have hlen : S.length ≤ ((Index.init true).build L).num_items := by
      have h1 : S.toFinset ⊆ Finset.range ((Index.init true).build L).num_items :=
        fun s hs => Finset.mem_range.mpr (hb s (List.mem_toFinset.mp hs))
      have h2 := Finset.card_le_card h1
      rwa [List.toFinset_card_of_nodup hS, Finset.card_range] at h2
    show ((Index.init true).build L).num_items - S.length + S.length = _
    omega

/-- Witness for C6 at two records and removal of position 0: the surviving
measurement posting keeps position 1 unrenumbered, the emptied tag and
field keys are dropped, and the count drops by one. -/
theorem remove_filters_without_renumbering_witness :
    assocGet (((Index.init true).build
        [⟨10, "m", [("t", "v")], ["f"]⟩, ⟨20, "m", [], []⟩]).remove [0]).measurements "m"
      = some [1]
    ∧ assocGet (((Index.init true).build
        [⟨10, "m", [("t", "v")], ["f"]⟩, ⟨20, "m", [], []⟩]).remove [0]).fields "f"
      = none
    ∧ ((assocGet (((Index.init true).build
        [⟨10, "m", [("t", "v")], ["f"]⟩, ⟨20, "m", [], []⟩]).remove [0]).tags "t").bind
        (fun vm => assocGet vm "v")) = none
    ∧ (((Index.init true).build
        [⟨10, "m", [("t", "v")], ["f"]⟩, ⟨20, "m", [], []⟩]).remove [0]).num_items + 1 = 2 := by
  have h := remove_filters_without_renumbering
    [⟨10, "m", [("t", "v")], ["f"]⟩, ⟨20, "m", [], []⟩] [0] (by decide) (by decide)
  refine ⟨?_, ?_, ?_, ?_⟩
  · rw [h.2.1 "m"]; rfl
  · rw [h.2.2.1 "f"]; rfl
  · rw [h.2.2.2.1 "t" "v"]; rfl
  · exact h.2.2.2.2

/-- A stored posting list is strictly ascending, within the position
range, and nonempty (empty lists are dropped on removal and never
created). -/
def postingOK (n : Nat) (l : List Nat) : Prop :=
  List.Sorted (· < ·) l ∧ (∀ x ∈ l, x < n) ∧ l ≠ []

/-- The index invariant: timestamps aligned with the item count and every
posting list well-formed. -/
def Index.WF (i : Index) : Prop :=
  i.timestamps.length = i.num_items
    ∧ (∀ kv ∈ i.measurements, postingOK i.num_items kv.2)
    ∧ (∀ kv ∈ i.fields, postingOK i.num_items kv.2)
    ∧ (∀ kv ∈ i.tags, kv.2 ≠ [] ∧ ∀ vv ∈ kv.2, postingOK i.num_items vv.2)

/-- Structure of posting-insertion members: untouched, appended-to, or
freshly created. -/
theorem mem_addPosting (m : List (String × List Nat)) (k : String) (idx : Nat) :
    ∀ kv ∈ addPosting m k idx,
      kv ∈ m ∨ (∃ l, (k, l) ∈ m ∧ kv = (k, l ++ [idx])) ∨ kv = (k, [idx]) := by
  induction m with
  | nil =>
    intro kv hkv
    simp only [addPosting, List.mem_singleton] at hkv
    exact Or.inr (Or.inr hkv)
  | cons hd tl ih =>
    obtain ⟨k0, l0⟩ := hd
    intro kv hkv
    by_cases hk : k0 = k
    · subst hk
      rw [show addPosting ((k0, l0) :: tl) k0 idx = (k0, l0 ++ [idx]) :: tl by
        simp [addPosting]] at hkv
      rcases List.mem_cons.mp hkv with rfl | h2
      · exact Or.inr (Or.inl ⟨l0, List.mem_cons_self _ _, rfl⟩)
      · exact Or.inl (List.mem_cons_of_mem _ h2)
    · rw [show addPosting ((k0, l0) :: tl) k idx = (k0, l0) :: addPosting tl k idx by
        simp [addPosting, hk]] at hkv
      rcases List.mem_cons.mp hkv with rfl | h2
      · exact Or.inl (List.mem_cons_self _ _)
      · rcases ih kv h2 with h3 | ⟨l, h3, h4⟩ | h3
        · exact Or.inl (List.mem_cons_of_mem _ h3)
        · exact Or.inr (Or.inl ⟨l, List.mem_cons_of_mem _ h3, h4⟩)
        · exact Or.inr (Or.inr h3)

/-- Appending a strict upper bound keeps a list strictly sorted. -/
theorem sorted_append_singleton (l : List Nat) (a : Nat)
    (hs : List.Sorted (· < ·) l) (hb : ∀ x ∈ l, x < a) :
    List.Sorted (· < ·) (l ++ [a]) := by
  refine List.pairwise_append.mpr ⟨hs, List.sorted_singleton a, ?_⟩
  intro x hx y hy
  rw [List.mem_singleton.mp hy]
  exact hb x hx

/-- Inserting position `n` into a dict whose key-`k` entries hold only
positions below `n` keeps every posting list sorted, bounded by `n + 1`
and nonempty. -/
theorem addPosting_postingOK (m : List (String × List Nat)) (k : String) (n : Nat)
    (hall : ∀ kv ∈ m, postingOK (n + 1) kv.2)
    (hkey : ∀ kv ∈ m, kv.1 = k → ∀ x ∈ kv.2, x < n) :
    ∀ kv ∈ addPosting m k n, postingOK (n + 1) kv.2 := by
  intro kv hkv
  rcases mem_addPosting m k n kv hkv with h1 | ⟨l, h1, rfl⟩ | rfl
  · exact hall kv h1
  · refine ⟨sorted_append_singleton l n (hall (k, l) h1).1 (hkey (k, l) h1 rfl), ?_, by simp⟩
    intro x hx
    rcases List.mem_append.mp hx with h2 | h2
    · exact (hall (k, l) h1).2.1 x h2
    · rw [List.mem_singleton.mp h2]; omega
  · exact ⟨List.sorted_singleton n, by intro x hx; rw [List.mem_singleton.mp hx]; omega,
      by simp⟩

/-- Indexing a record's distinct field keys at position `n` preserves all
posting invariants when existing entries of those keys stay below `n`. -/
theorem insertFields_postingOK (n : Nat) :
    ∀ (keys : List String) (m : List (String × List Nat)),
      keys.Nodup →
      (∀ kv ∈ m, postingOK (n + 1) kv.2) →
      (∀ k ∈ keys, ∀ kv ∈ m, kv.1 = k → ∀ x ∈ kv.2, x < n) →
      ∀ kv ∈ insertFields m n keys, postingOK (n + 1) kv.2 := by
  intro keys
  induction keys with
  | nil => intro m _ hall _; exact hall
  | cons k ks ih =>
    intro m hnd hall hkey
    rw [show insertFields m n (k :: ks) = insertFields (addPosting m k n) n ks from rfl]
    apply ih (addPosting m k n) (List.nodup_cons.mp hnd).2
    · exact addPosting_postingOK m k n hall
        (fun kv hkv hk1 => hkey k (List.mem_cons_self _ _) kv hkv hk1)
    · intro k2 hk2 kv hkv hk1
      have hk2ne : k2 ≠ k := fun he => (List.nodup_cons.mp hnd).1 (he ▸ hk2)
      rcases mem_addPosting m k n kv hkv with h1 | ⟨l, h1, rfl⟩ | rfl
      · exact hkey k2 (List.mem_cons_of_mem _ hk2) kv h1 hk1
      · exact absurd hk1 (Ne.symm hk2ne)
      · exact absurd hk1 (Ne.symm hk2ne)

/-- Structure of tag-insertion members: untouched, inner-appended, or
freshly created. -/
theorem mem_addTag (m : List (String × List (String × List Nat)))
    (k v : String) (idx : Nat) :
    ∀ kv ∈ addTag m k v idx,
      kv ∈ m ∨ (∃ vm, (k, vm) ∈ m ∧ kv = (k, addPosting vm v idx))
        ∨ kv = (k, [(v, [idx])]) := by
  induction m with
  | nil =>
    intro kv hkv
    simp only [addTag, List.mem_singleton] at hkv
    exact Or.inr (Or.inr hkv)
  | cons hd tl ih =>
    obtain ⟨k0, vm0⟩ := hd
    intro kv hkv
    by_cases hk : k0 = k
    · subst hk
      rw [show addTag ((k0, vm0) :: tl) k0 v idx = (k0, addPosting vm0 v idx) :: tl by
        simp [addTag]] at hkv
      rcases List.mem_cons.mp hkv with rfl | h2
      · exact Or.inr (Or.inl ⟨vm0, List.mem_cons_self _ _, rfl⟩)
      · exact Or.inl (List.mem_cons_of_mem _ h2)
    · rw [show addTag ((k0, vm0) :: tl) k v idx = (k0, vm0) :: addTag tl k v idx by
        simp [addTag, hk]] at hkv
      rcases List.mem_cons.mp hkv with rfl | h2
      · exact Or.inl (List.mem_cons_self _ _)
      · rcases ih kv h2 with h3 | ⟨vm, h3, h4⟩ | h3
        · exact Or.inl (List.mem_cons_of_mem _ h3)
        · exact Or.inr (Or.inl ⟨vm, List.mem_cons_of_mem _ h3, h4⟩)
        · exact Or.inr (Or.inr h3)

/-- A posting insertion never produces an empty dict. -/
theorem addPosting_ne_nil (m : List (String × List Nat)) (k : String) (idx : Nat) :
    addPosting m k idx ≠ [] := by
  cases m with
  | nil => simp [addPosting]
  | cons hd tl =>
    obtain ⟨k0, l0⟩ := hd
    by_cases hk : k0 = k <;> simp [addPosting, hk]

/-- Indexing one tag pair at position `n` preserves all inner posting
invariants when existing entries of that tag pair's key stay below `n`. -/
theorem addTag_postingOK (m : List (String × List (String × List Nat)))
    (k v : String) (n : Nat)
    (hall : ∀ kv ∈ m, kv.2 ≠ [] ∧ ∀ vv ∈ kv.2, postingOK (n + 1) vv.2)
    (hkey : ∀ kv ∈ m, kv.1 = k → ∀ vv ∈ kv.2, ∀ x ∈ vv.2, x < n) :
    ∀ kv ∈ addTag m k v n, kv.2 ≠ [] ∧ ∀ vv ∈ kv.2, postingOK (n + 1) vv.2 := by
  intro kv hkv
  rcases mem_addTag m k v n kv hkv with h1 | ⟨vm, h1, rfl⟩ | rfl
  · exact hall kv h1
  · refine ⟨addPosting_ne_nil vm v n, ?_⟩
    intro vv hvv
    rcases mem_addPosting vm v n vv hvv with h2 | ⟨l, h2, rfl⟩ | rfl
    · exact (hall (k, vm) h1).2 vv h2
    · refine ⟨sorted_append_singleton l n ((hall (k, vm) h1).2 (v, l) h2).1
        (hkey (k, vm) h1 rfl (v, l) h2), ?_, by simp⟩
      intro x hx
      rcases List.mem_append.mp hx with h3 | h3
      · exact ((hall (k, vm) h1).2 (v, l) h2).2.1 x h3
      · rw [List.mem_singleton.mp h3]; omega
    · exact ⟨List.sorted_singleton n,
        by intro x hx; rw [List.mem_singleton.mp hx]; omega, by simp⟩
  · refine ⟨by simp, ?_⟩
    intro vv hvv
    rw [List.mem_singleton.mp hvv]
    exact ⟨List.sorted_singleton n,
      by intro x hx; rw [List.mem_singleton.mp hx]; omega, by simp⟩

/-- Indexing a record's tag pairs with distinct tag keys at position `n`
preserves all tag posting invariants. -/
theorem insertTags_postingOK (n : Nat) :
    ∀ (tgs : List (String × String)) (m : List (String × List (String × List Nat))),
      (tgs.map Prod.fst).Nodup →
      (∀ kv ∈ m, kv.2 ≠ [] ∧ ∀ vv ∈ kv.2, postingOK (n + 1) vv.2) →
      (∀ pr ∈ tgs, ∀ kv ∈ m, kv.1 = pr.1 → ∀ vv ∈ kv.2, ∀ x ∈ vv.2, x < n) →
      ∀ kv ∈ insertTags m n tgs, kv.2 ≠ [] ∧ ∀ vv ∈ kv.2, postingOK (n + 1) vv.2 := by
  intro tgs
  induction tgs with
  | nil => intro m _ hall _; exact hall
  | cons pr prs ih =>
    intro m hnd hall hkey
    rw [show insertTags m n (pr :: prs) = insertTags (addTag m pr.1 pr.2 n) n prs
      from rfl]
    simp only [List.map_cons, List.nodup_cons] at hnd
    apply ih (addTag m pr.1 pr.2 n) hnd.2
    · exact addTag_postingOK m pr.1 pr.2 n hall
        (fun kv hkv hk1 => hkey pr (List.mem_cons_self _ _) kv hkv hk1)
    · intro pr2 hpr2 kv hkv hk1 vv hvv
      have hne : pr2.1 ≠ pr.1 :=
        fun he => hnd.1 (he ▸ List.mem_map.mpr ⟨pr2, hpr2, rfl⟩)
      rcases mem_addTag m pr.1 pr.2 n kv hkv with h1 | ⟨vm, h1, rfl⟩ | rfl
      · exact hkey pr2 (List.mem_cons_of_mem _ hpr2) kv h1 hk1 vv hvv
      · exact absurd hk1 (Ne.symm hne)
      · exact absurd hk1 (Ne.symm hne)

/-- Inserting one well-formed point at the current item count preserves
the index invariant. -/
theorem insertPoint_WF (i : Index) (p : Point) (hp : Point.WF p) (h : Index.WF i) :
    Index.WF (insertPoint i i.num_items p) := by
  obtain ⟨ht, hm, hf, htg⟩ := h
  refine ⟨?_, ?_, ?_, ?_⟩
  · show (i.timestamps ++ [p.time]).length = i.num_items + 1
    simp [ht]
  · intro kv hkv
    exact addPosting_postingOK i.measurements p.measurement i.num_items
      (fun kv2 hkv2 => ⟨(hm kv2 hkv2).1,
        fun x hx => Nat.lt_succ_of_lt ((hm kv2 hkv2).2.1 x hx), (hm kv2 hkv2).2.2⟩)
      (fun kv2 hkv2 _ x hx => (hm kv2 hkv2).2.1 x hx) kv hkv
  · intro kv hkv
    exact insertFields_postingOK i.num_items p.fields i.fields hp.2
      (fun kv2 hkv2 => ⟨(hf kv2 hkv2).1,
        fun x hx => Nat.lt_succ_of_lt ((hf kv2 hkv2).2.1 x hx), (hf kv2 hkv2).2.2⟩)
      (fun k _ kv2 hkv2 _ x hx => (hf kv2 hkv2).2.1 x hx) kv hkv
  · intro kv hkv
    exact insertTags_postingOK i.num_items p.tags i.tags hp.1
      (fun kv2 hkv2 => ⟨(htg kv2 hkv2).1,
        fun vv hvv => ⟨((htg kv2 hkv2).2 vv hvv).1,
          fun x hx => Nat.lt_succ_of_lt (((htg kv2 hkv2).2 vv hvv).2.1 x hx),
          ((htg kv2 hkv2).2 vv hvv).2.2⟩⟩)
      (fun pr _ kv2 hkv2 _ vv hvv x hx => ((htg kv2 hkv2).2 vv hvv).2.1 x hx) kv hkv

/-- Folding well-formed points from the right enumeration offset preserves
the index invariant. -/
theorem foldl_insertPoint_WF (c : Nat) :
    ∀ (pts : List Point) (s : Nat) (acc : Index),
      Index.WF acc → acc.num_items = c + s →
      (∀ p ∈ pts, Point.WF p) →
      Index.WF ((List.enumFrom s pts).foldl
        (fun a pr => insertPoint a (c + pr.1) pr.2) acc) := by
  intro pts
  induction pts with
  | nil => intro s acc h _ _; exact h
  | cons p tl ih =>
    intro s acc h hn hw
    rw [show List.enumFrom s (p :: tl) = (s, p) :: List.enumFrom (s + 1) tl from rfl,
      List.foldl_cons]
    refine ih (s + 1) (insertPoint acc (c + s) p) ?_ ?_
      (fun p2 hp2 => hw p2 (List.mem_cons_of_mem _ hp2))
    · have hstep := insertPoint_WF acc p (hw p (List.mem_cons_self _ _)) h
      rwa [hn] at hstep
    · show acc.num_items + 1 = c + (s + 1)
      omega

/-- The empty index (any validity) satisfies the invariant. -/
theorem init_WF (v : Bool) : Index.WF (Index.init v) :=
  ⟨rfl, fun kv hkv => absurd hkv (List.not_mem_nil kv),
    fun kv hkv => absurd hkv (List.not_mem_nil kv),
    fun kv hkv => absurd hkv (List.not_mem_nil kv)⟩

/-- Building from well-formed points always yields a well-formed index. -/
theorem build_WF (i : Index) (pts : List Point) (hw : ∀ p ∈ pts, Point.WF p) :
    Index.WF (i.build pts) := by
  have hreset : Index.WF i.reset :=
    ⟨rfl, fun kv hkv => absurd hkv (List.not_mem_nil kv),
      fun kv hkv => absurd hkv (List.not_mem_nil kv),
      fun kv hkv => absurd hkv (List.not_mem_nil kv)⟩
  have h := foldl_insertPoint_WF 0 pts 0 i.reset hreset rfl hw
  have hfn : (fun (a : Index) (pr : Nat × Point) => insertPoint a (0 + pr.1) pr.2)
      = (fun (a : Index) (pr : Nat × Point) => insertPoint a pr.1 pr.2) := by
    funext a pr
    rw [Nat.zero_add]
  rw [Index.build, show pts.enum = List.enumFrom 0 pts from rfl, ← hfn]
  exact h

/-- Inserting well-formed points into a well-formed index preserves the
invariant. -/
theorem insert_WF (i : Index) (pts : List Point) (h : Index.WF i)
    (hw : ∀ p ∈ pts, Point.WF p) : Index.WF (i.insert pts) := by
  have hc := foldl_insertPoint_WF i.timestamps.length pts 0 i h (by rw [h.1]; omega) hw
  rw [Index.insert, show pts.enum = List.enumFrom 0 pts from rfl]
  exact hc

/-- Invalidation resets to an empty, well-formed state. -/
theorem invalidate_WF (i : Index) : Index.WF i.invalidate :=
  ⟨rfl, fun kv hkv => absurd hkv (List.not_mem_nil kv),
    fun kv hkv => absurd hkv (List.not_mem_nil kv),
    fun kv hkv => absurd hkv (List.not_mem_nil kv)⟩

/-- A valid compaction map: defined, bounded by the new range, and
strictly increasing on every in-range position outside the excluded
(removed) set. -/
def updateMapOK (n k : Nat) (excl : List Nat) (u : List (Nat × Nat)) : Prop :=
  (∀ a, a < n → a ∉ excl → ∃ b, dictGet u a = some b ∧ b < k)
    ∧ (∀ a b a2 b2, a < n → b < n → a ∉ excl → b ∉ excl → a < b →
        dictGet u a = some a2 → dictGet u b = some b2 → a2 < b2)

/-- Mapping a sorted in-domain posting list through a strictly increasing
covering map yields a sorted list bounded by the new range. -/
theorem map_posting_ok (n2 : Nat) (P : Nat → Prop) (u : List (Nat × Nat))
    (hcov : ∀ a, P a → ∃ b, dictGet u a = some b ∧ b < n2)
    (hmono : ∀ a b a2 b2, P a → P b → a < b →
        dictGet u a = some a2 → dictGet u b = some b2 → a2 < b2)
    (l : List Nat) (hs : List.Sorted (· < ·) l) (hbd : ∀ x ∈ l, P x) :
    List.Sorted (· < ·) (l.map (fun p => (dictGet u p).getD 0))
      ∧ ∀ y ∈ l.map (fun p => (dictGet u p).getD 0), y < n2 := by
  constructor
  · show List.Pairwise (· < ·) (l.map (fun p => (dictGet u p).getD 0))
    rw [List.pairwise_map]
    refine List.Pairwise.imp_of_mem ?_ hs
    intro a b ha hb hab
    rcases hcov a (hbd a ha) with ⟨a2, ha2, _⟩
    rcases hcov b (hbd b hb) with ⟨b2, hb2, _⟩
    rw [ha2, hb2]
    exact hmono a b a2 b2 (hbd a ha) (hbd b hb) hab ha2 hb2
  · intro y hy
    rcases List.mem_map.mp hy with ⟨p, hp, rfl⟩
    rcases hcov p (hbd p hp) with ⟨b, hb1, hb2⟩
    rw [hb1]
    exact hb2

/-- Structure of surviving posting entries after removal: a nonempty
filter of an original posting list. -/
theorem mem_removePostings (m : List (String × List Nat)) (r : List Nat) :
    ∀ kv ∈ removePostings m r,
      ∃ l0, (kv.1, l0) ∈ m ∧ kv.2 = l0.filter (fun x => !(r.contains x))
        ∧ kv.2 ≠ [] := by
  intro kv hkv
  rcases List.mem_filter.mp hkv with ⟨hkv1, hkv2⟩
  rcases List.mem_map.mp hkv1 with ⟨kv0, hkv0, rfl⟩
  refine ⟨kv0.2, ?_, rfl, ?_⟩
  · exact hkv0
  · intro hx
    rw [hx] at hkv2
    exact Bool.noConfusion hkv2

/-- Structure of surviving tag entries after removal: a nonempty removal
image of an original inner dict. -/
theorem mem_removeTagPostings (m : List (String × List (String × List Nat)))
    (r : List Nat) :
    ∀ kv ∈ removeTagPostings m r,
      ∃ vm0, (kv.1, vm0) ∈ m ∧ kv.2 = removePostings vm0 r ∧ kv.2 ≠ [] := by
  intro kv hkv
  rcases List.mem_filter.mp hkv with ⟨hkv1, hkv2⟩
  rcases List.mem_map.mp hkv1 with ⟨kv0, hkv0, rfl⟩
  refine ⟨kv0.2, hkv0, rfl, ?_⟩
  intro hx
  rw [hx] at hkv2
  exact Bool.noConfusion hkv2

/-- Updating an index whose posting positions all satisfy a domain
predicate succeeds under a covering strictly increasing map, preserving
counts and timestamps and producing sorted, bounded, nonempty posting
lists. -/
theorem update_generic (i2 : Index) (u : List (Nat × Nat)) (n2 : Nat) (P : Nat → Prop)
    (hm : ∀ kv ∈ i2.measurements,
        List.Sorted (· < ·) kv.2 ∧ (∀ x ∈ kv.2, P x) ∧ kv.2 ≠ [])
    (hf : ∀ kv ∈ i2.fields,
        List.Sorted (· < ·) kv.2 ∧ (∀ x ∈ kv.2, P x) ∧ kv.2 ≠ [])
    (ht : ∀ kv ∈ i2.tags, kv.2 ≠ [] ∧ ∀ vv ∈ kv.2,
        List.Sorted (· < ·) vv.2 ∧ (∀ x ∈ vv.2, P x) ∧ vv.2 ≠ [])
    (hcov : ∀ a, P a → ∃ b, dictGet u a = some b ∧ b < n2)
    (hmono : ∀ a b a2 b2, P a → P b → a < b →
        dictGet u a = some a2 → dictGet u b = some b2 → a2 < b2) :
    ∃ j, i2.update u = some j
      ∧ j.num_items = i2.num_items ∧ j.timestamps = i2.timestamps
      ∧ (∀ kv ∈ j.measurements,
          List.Sorted (· < ·) kv.2 ∧ (∀ x ∈ kv.2, x < n2) ∧ kv.2 ≠ [])
      ∧ (∀ kv ∈ j.fields,
          List.Sorted (· < ·) kv.2 ∧ (∀ x ∈ kv.2, x < n2) ∧ kv.2 ≠ [])
      ∧ (∀ kv ∈ j.tags, kv.2 ≠ [] ∧ ∀ vv ∈ kv.2,
          List.Sorted (· < ·) vv.2 ∧ (∀ x ∈ vv.2, x < n2) ∧ vv.2 ≠ []) := by
  have hsome : ∀ a, P a → (dictGet u a).isSome := by
    intro a ha
    rcases hcov a ha with ⟨b, hb, _⟩
    rw [hb]
    rfl
  have hms := updateMeasurements_eq_map i2.measurements u
    (fun kv hkv p hp => hsome p ((hm kv hkv).2.1 p hp))
    (fun kv hkv => (hm kv hkv).2.2)
  have hfs := updateFields_eq_map i2.fields u
    (fun kv hkv p hp => hsome p ((hf kv hkv).2.1 p hp))
  have htg := updateTags_eq_map i2.tags u
    (fun kv hkv vv hvv p hp => hsome p (((ht kv hkv).2 vv hvv).2.1 p hp))
  refine ⟨{ i2 with
      measurements := i2.measurements.map
        (fun kv => (kv.1, kv.2.map (fun p => (dictGet u p).getD 0))),
      tags := i2.tags.map (fun kv => (kv.1, kv.2.map
        (fun vv => (vv.1, vv.2.map (fun p => (dictGet u p).getD 0))))),
      fields := i2.fields.map
        (fun kv => (kv.1, kv.2.map (fun p => (dictGet u p).getD 0))) },
    by simp [Index.update, hms, htg, hfs], rfl, rfl, ?_, ?_, ?_⟩
  · intro kv hkv
    rcases List.mem_map.mp hkv with ⟨kv0, hkv0, rfl⟩
    have hok := map_posting_ok n2 P u hcov hmono kv0.2 (hm kv0 hkv0).1 ((hm kv0 hkv0).2.1)
    refine ⟨hok.1, hok.2, ?_⟩
    intro hnil
    exact (hm kv0 hkv0).2.2 (List.map_eq_nil_iff.mp hnil)
  · intro kv hkv
    rcases List.mem_map.mp hkv with ⟨kv0, hkv0, rfl⟩
    have hok := map_posting_ok n2 P u hcov hmono kv0.2 (hf kv0 hkv0).1 ((hf kv0 hkv0).2.1)
    refine ⟨hok.1, hok.2, ?_⟩
    intro hnil
    exact (hf kv0 hkv0).2.2 (List.map_eq_nil_iff.mp hnil)
  · intro kv hkv
    rcases List.mem_map.mp hkv with ⟨kv0, hkv0, rfl⟩
    refine ⟨?_, ?_⟩
    · intro hnil
      exact (ht kv0 hkv0).1 (List.map_eq_nil_iff.mp hnil)
    · intro vv hvv
      rcases List.mem_map.mp hvv with ⟨vv0, hvv0, rfl⟩
      have hok := map_posting_ok n2 P u hcov hmono vv0.2
        ((ht kv0 hkv0).2 vv0 hvv0).1 (((ht kv0 hkv0).2 vv0 hvv0).2.1)
      refine ⟨hok.1, hok.2, ?_⟩
      intro hnil
      exact ((ht kv0 hkv0).2 vv0 hvv0).2.2 (List.map_eq_nil_iff.mp hnil)

/-- Counting members of a duplicate-free in-range set over the position
range gives its size. -/
theorem countP_contains_range (n : Nat) (r : List Nat) (hnd : r.Nodup)
    (hb : ∀ x ∈ r, x < n) :
    (List.range n).countP (fun p => r.contains p) = r.length := by
  rw [List.countP_eq_length_filter]
  have hperm : List.Perm ((List.range n).filter (fun p => r.contains p)) r := by
    apply (List.perm_ext_iff_of_nodup ((List.nodup_range n).filter _) hnd).mpr
    intro x
    rw [List.mem_filter, List.mem_range]
    constructor
    · rintro ⟨_, hx2⟩
      simpa using hx2
    · intro hx
      exact ⟨hb x hx, by simpa using hx⟩
  exact hperm.length_eq

/-- Removing a duplicate-free in-range position set shortens the
timestamps by exactly its size. -/
theorem removeTimestamps_length (ts : List Int) (r : List Nat) (hnd : r.Nodup)
    (hb : ∀ x ∈ r, x < ts.length) :
    (removeTimestamps ts r).length = ts.length - r.length := by
  rw [removeTimestamps_spec, List.length_map, ← List.countP_eq_length_filter]
  have hsplit := List.length_eq_countP_add_countP (fun p => r.contains p)
    (l := List.range ts.length)
  rw [countP_contains_range ts.length r hnd hb] at hsplit
  have hco : (List.range ts.length).countP (fun a => decide ¬(r.contains a) = true)
      = (List.range ts.length).countP (fun p => !(r.contains p)) := by
    apply List.countP_congr
    intro a _
    by_cases hc : r.contains a <;> simp [hc]
  rw [List.length_range] at hsplit
  omega

/-- Removing positions and then updating with a valid compaction map
succeeds and restores the full index invariant. -/
theorem removeUpdate_WF (i : Index) (r : List Nat) (u : List (Nat × Nat))
    (h : Index.WF i) (hnd : r.Nodup) (hb : ∀ x ∈ r, x < i.num_items)
    (hu : updateMapOK i.num_items (i.num_items - r.length) r u) :
    ∃ j, (i.remove r).update u = some j ∧ Index.WF j := by
  obtain ⟨ht, hmw, hfw, htw⟩ := h
  have hm2 : ∀ kv ∈ (i.remove r).measurements,
      List.Sorted (· < ·) kv.2 ∧ (∀ x ∈ kv.2, x < i.num_items ∧ x ∉ r) ∧ kv.2 ≠ [] := by
    intro kv hkv
    rcases mem_removePostings i.measurements r kv hkv with ⟨l0, hl0, heq, hne⟩
    refine ⟨?_, ?_, hne⟩
    · rw [heq]
      exact (hmw (kv.1, l0) hl0).1.filter _
    · intro x hx
      rw [heq] at hx
      rcases List.mem_filter.mp hx with ⟨hx1, hx2⟩
      exact ⟨(hmw (kv.1, l0) hl0).2.1 x hx1, by simpa using hx2⟩
  have hf2 : ∀ kv ∈ (i.remove r).fields,
      List.Sorted (· < ·) kv.2 ∧ (∀ x ∈ kv.2, x < i.num_items ∧ x ∉ r) ∧ kv.2 ≠ [] := by
    intro kv hkv
    rcases mem_removePostings i.fields r kv hkv with ⟨l0, hl0, heq, hne⟩
    refine ⟨?_, ?_, hne⟩
    · rw [heq]
      exact (hfw (kv.1, l0) hl0).1.filter _
    · intro x hx
      rw [heq] at hx
      rcases List.mem_filter.mp hx with ⟨hx1, hx2⟩
      exact ⟨(hfw (kv.1, l0) hl0).2.1 x hx1, by simpa using hx2⟩
  have ht2 : ∀ kv ∈ (i.remove r).tags, kv.2 ≠ [] ∧ ∀ vv ∈ kv.2,
      List.Sorted (· < ·) vv.2 ∧ (∀ x ∈ vv.2, x < i.num_items ∧ x ∉ r) ∧ vv.2 ≠ [] := by
    intro kv hkv
    rcases mem_removeTagPostings i.tags r kv hkv with ⟨vm0, hvm0, heq, hne⟩
    refine ⟨hne, ?_⟩
    intro vv hvv
    rw [heq] at hvv
    rcases mem_removePostings vm0 r vv hvv with ⟨l0, hl0, heq2, hne2⟩
    refine ⟨?_, ?_, hne2⟩
    · rw [heq2]
      exact (((htw (kv.1, vm0) hvm0).2) (vv.1, l0) hl0).1.filter _
    · intro x hx
      rw [heq2] at hx
      rcases List.mem_filter.mp hx with ⟨hx1, hx2⟩
      exact ⟨(((htw (kv.1, vm0) hvm0).2) (vv.1, l0) hl0).2.1 x hx1, by simpa using hx2⟩
  obtain ⟨j, hj, hnum, hts, hjm, hjf, hjt⟩ := update_generic (i.remove r) u
    (i.num_items - r.length) (fun x => x < i.num_items ∧ x ∉ r) hm2 hf2 ht2
    (fun a ha => hu.1 a ha.1 ha.2)
    (fun a b a2 b2 ha hb2 hab h1 h2 =>
      hu.2 a b a2 b2 ha.1 hb2.1 ha.2 hb2.2 hab h1 h2)
  refine ⟨j, hj, ?_, ?_, ?_, ?_⟩
  · rw [hts, hnum]
    show (removeTimestamps i.timestamps r).length = (i.remove r).num_items
    rw [removeTimestamps_length i.timestamps r hnd (by rw [ht]; exact hb)]
    rw [ht]
    rfl
  · intro kv hkv
    have hkv2 := hjm kv hkv
    refine ⟨hkv2.1, ?_, hkv2.2.2⟩
    intro x hx
    rw [hnum]
    exact hkv2.2.1 x hx
  · intro kv hkv
    have hkv2 := hjf kv hkv
    refine ⟨hkv2.1, ?_, hkv2.2.2⟩
    intro x hx
    rw [hnum]
    exact hkv2.2.1 x hx
  · intro kv hkv
    have hkv2 := hjt kv hkv
    refine ⟨hkv2.1, ?_⟩
    intro vv hvv
    have hvv2 := hkv2.2 vv hvv
    refine ⟨hvv2.1, ?_, hvv2.2.2⟩
    intro x hx
    rw [hnum]
    exact hvv2.2.1 x hx

/-- A standalone update with a total strictly increasing in-range map
succeeds and preserves the index invariant. -/
theorem update_WF (i : Index) (u : List (Nat × Nat)) (h : Index.WF i)
    (hu : updateMapOK i.num_items i.num_items [] u) :
    ∃ j, i.update u = some j ∧ Index.WF j := by
  obtain ⟨ht, hmw, hfw, htw⟩ := h
  obtain ⟨j, hj, hnum, hts, hjm, hjf, hjt⟩ := update_generic i u i.num_items
    (fun x => x < i.num_items)
    (fun kv hkv => ⟨(hmw kv hkv).1, (hmw kv hkv).2.1, (hmw kv hkv).2.2⟩)
    (fun kv hkv => ⟨(hfw kv hkv).1, (hfw kv hkv).2.1, (hfw kv hkv).2.2⟩)
    (fun kv hkv => ⟨(htw kv hkv).1, fun vv hvv =>
      ⟨((htw kv hkv).2 vv hvv).1, ((htw kv hkv).2 vv hvv).2.1,
        ((htw kv hkv).2 vv hvv).2.2⟩⟩)
    (fun a ha => hu.1 a ha (List.not_mem_nil a))
    (fun a b a2 b2 ha hb2 hab h1 h2 =>
      hu.2 a b a2 b2 ha hb2 (List.not_mem_nil a) (List.not_mem_nil b) hab h1 h2)
  refine ⟨j, hj, ?_, ?_, ?_, ?_⟩
  · rw [hts, hnum]
    exact ht
  · intro kv hkv
    have hkv2 := hjm kv hkv
    refine ⟨hkv2.1, ?_, hkv2.2.2⟩
    intro x hx
    rw [hnum]
    exact hkv2.2.1 x hx
  · intro kv hkv
    have hkv2 := hjf kv hkv
    refine ⟨hkv2.1, ?_, hkv2.2.2⟩
    intro x hx
    rw [hnum]
    exact hkv2.2.1 x hx
  · intro kv hkv
    have hkv2 := hjt kv hkv
    refine ⟨hkv2.1, ?_⟩
    intro vv hvv
    have hvv2 := hkv2.2 vv hvv
    refine ⟨hvv2.1, ?_, hvv2.2.2⟩
    intro x hx
    rw [hnum]
    exact hvv2.2.1 x hx

/-- A maintenance operation: build, insert, remove followed by its
compaction update, a standalone update, or invalidation. -/
inductive Op where
  | opBuild (pts : List Point)
  | opInsert (pts : List Point)
  | opRemoveUpdate (r : List Nat) (u : List (Nat × Nat))
  | opUpdate (u : List (Nat × Nat))
  | opInvalidate

/-- Apply one maintenance operation (a faulting update leaves the
pre-update state, which the validity side conditions rule out). -/
def applyOp (i : Index) : Op → Index
  | .opBuild pts => i.build pts
  | .opInsert pts => i.insert pts
  | .opRemoveUpdate r u => ((i.remove r).update u).getD (i.remove r)
  | .opUpdate u => (i.update u).getD i
  | .opInvalidate => i.invalidate

/-- The caller contract of each operation: records are dict-shaped,
removal sets are duplicate-free and in range, and position maps are
strictly increasing compactions into the resulting range. -/
def OpOK (i : Index) : Op → Prop
  | .opBuild pts => ∀ p ∈ pts, Point.WF p
  | .opInsert pts => ∀ p ∈ pts, Point.WF p
  | .opRemoveUpdate r u => r.Nodup ∧ (∀ x ∈ r, x < i.num_items)
      ∧ updateMapOK i.num_items (i.num_items - r.length) r u
  | .opUpdate u => updateMapOK i.num_items i.num_items [] u
  | .opInvalidate => True

/-- Apply a sequence of maintenance operations. -/
def applyOps : Index → List Op → Index
  | i, [] => i
  | i, op :: ops => applyOps (applyOp i op) ops

/-- The caller contract holds along the whole operation sequence. -/
def OpsOK : Index → List Op → Prop
  | _, [] => True
  | i, op :: ops => OpOK i op ∧ OpsOK (applyOp i op) ops

/-- Every contract-respecting operation preserves the index invariant. -/
theorem applyOp_WF (i : Index) (op : Op) (h : Index.WF i) (hok : OpOK i op) :
    Index.WF (applyOp i op) := by
  cases op with
  | opBuild pts => exact build_WF i pts hok
  | opInsert pts => exact insert_WF i pts h hok
  | opRemoveUpdate r u =>
    obtain ⟨j, hj, hjwf⟩ := removeUpdate_WF i r u h hok.1 hok.2.1 hok.2.2
    show Index.WF (((i.remove r).update u).getD (i.remove r))
    rw [hj]
    exact hjwf
  | opUpdate u =>
    obtain ⟨j, hj, hjwf⟩ := update_WF i u h hok
    show Index.WF ((i.update u).getD i)
    rw [hj]
    exact hjwf
  | opInvalidate => exact invalidate_WF i

/-- Every contract-respecting operation sequence preserves the index
invariant. -/
theorem applyOps_WF : ∀ (ops : List Op) (i : Index),
    Index.WF i → OpsOK i ops → Index.WF (applyOps i ops) := by
  intro ops
  induction ops with
  | nil => intro i h _; exact h
  | cons op tl ih =>
    intro i h hok
    exact ih (applyOp i op) (applyOp_WF i op h hok.1) hok.2

/-- Accumulating sorted unions over a posting dict yields a sorted list. -/
theorem foldl_union_sorted (test : String → Bool) :
    ∀ (m : List (String × List Nat)) (acc : List Nat),
      List.Sorted (· < ·) acc → (∀ kv ∈ m, List.Sorted (· < ·) kv.2) →
      List.Sorted (· < ·) (m.foldl
        (fun acc2 kv => if test kv.1 then union_two_sorted_lists acc2 kv.2 else acc2) acc) := by
  intro m
  induction m with
  | nil => intro acc hacc _; exact hacc
  | cons kv0 tl ih =>
    intro acc hacc hall
    rw [List.foldl_cons]
    by_cases hts : test kv0.1
    · simp only [hts, if_true]
      exact ih _ (union_two_sorted_lists_sorted _ _ hacc
        (hall kv0 (List.mem_cons_self _ _)))
        (fun kv hkv => hall kv (List.mem_cons_of_mem _ hkv))
    · simp only [hts, Bool.false_eq_true, if_false]
      exact ih _ hacc (fun kv hkv => hall kv (List.mem_cons_of_mem _ hkv))

/-- The measurement search result is sorted when all postings are. -/
theorem searchMeasurement_sorted (m : List (String × List Nat)) (test : String → Bool)
    (h : ∀ kv ∈ m, List.Sorted (· < ·) kv.2) :
    List.Sorted (· < ·) (searchMeasurement m test) :=
  foldl_union_sorted test m [] (List.sorted_nil) h

/-- The field search result is sorted when all postings are. -/
theorem searchFields_sorted (m : List (String × List Nat)) (ap : String → Bool)
    (h : ∀ kv ∈ m, List.Sorted (· < ·) kv.2) :
    List.Sorted (· < ·) (searchFields m ap) :=
  foldl_union_sorted ap m [] (List.sorted_nil) h

/-- Accumulating sorted unions over one tag key's values keeps the
accumulator sorted. -/
theorem foldl_union_tag_sorted (test : String → String → Option Bool) (k : String) :
    ∀ (vm : List (String × List Nat)) (acc : List Nat),
      List.Sorted (· < ·) acc → (∀ vv ∈ vm, List.Sorted (· < ·) vv.2) →
      List.Sorted (· < ·) (vm.foldl
        (fun acc2 vv =>
          match test k vv.1 with
          | none => acc2
          | some b => if b then union_two_sorted_lists acc2 vv.2 else acc2) acc) := by
  intro vm
  induction vm with
  | nil => intro acc hacc _; exact hacc
  | cons vv0 tl ih =>
    intro acc hacc hall
    rw [List.foldl_cons]
    cases htv : test k vv0.1 with
    | none => exact ih _ hacc (fun vv hvv => hall vv (List.mem_cons_of_mem _ hvv))
    | some b =>
      cases b with
      | false =>
        exact ih _ hacc (fun vv hvv => hall vv (List.mem_cons_of_mem _ hvv))
      | true =>
        exact ih _ (union_two_sorted_lists_sorted _ _ hacc
          (hall vv0 (List.mem_cons_self _ _)))
          (fun vv hvv => hall vv (List.mem_cons_of_mem _ hvv))

/-- The tag search result is sorted when all inner postings are. -/
theorem searchTags_sorted (tags : List (String × List (String × List Nat)))
    (test : String → String → Option Bool)
    (h : ∀ kv ∈ tags, ∀ vv ∈ kv.2, List.Sorted (· < ·) vv.2) :
    List.Sorted (· < ·) (searchTags tags test) := by
  show List.Sorted (· < ·) (tags.foldl _ [])
  have hgen : ∀ (m : List (String × List (String × List Nat))) (acc : List Nat),
      List.Sorted (· < ·) acc →
      (∀ kv ∈ m, ∀ vv ∈ kv.2, List.Sorted (· < ·) vv.2) →
      List.Sorted (· < ·) (m.foldl
        (fun acc2 kv =>
          kv.2.foldl
            (fun acc3 vv =>
              match test kv.1 vv.1 with
              | none => acc3
              | some b => if b then union_two_sorted_lists acc3 vv.2 else acc3)
            acc2) acc) := by
    intro m
    induction m with
    | nil => intro acc hacc _; exact hacc
    | cons kv0 tl ih =>
      intro acc hacc hall
      rw [List.foldl_cons]
      exact ih _ (foldl_union_tag_sorted test kv0.1 kv0.2 acc hacc
        (hall kv0 (List.mem_cons_self _ _)))
        (fun kv hkv => hall kv (List.mem_cons_of_mem _ hkv))
  exact hgen tags [] List.sorted_nil h

/-- Every timestamp search result is sorted, whatever the operator. -/
theorem searchTimestamps_sorted (ts : List Int) (op : TimeOp) :
    List.Sorted (· < ·) (searchTimestamps ts op) := by
  cases op with
  | eq rhs =>
    simp only [searchTimestamps]
    cases hm : find_eq ts rhs with
    | none => exact List.sorted_nil
    | some m =>
      show List.Sorted (· < ·) (collectEq ts rhs m)
      rw [collectEq, List.sorted_cons]
      constructor
      · intro b hb
        have hsub := List.takeWhile_sublist
          (l := List.range' (m + 1) (ts.length - (m + 1)))
          (fun i => ts.getD i 0 == rhs)
        have hmem := List.mem_range'_1.mp (hsub.subset hb)
        omega
      · exact List.Pairwise.sublist
          (List.takeWhile_sublist _) (List.pairwise_lt_range' _ _)
  | ne rhs =>
    simp only [searchTimestamps]
    cases hm : find_eq ts rhs with
    | none => exact List.sorted_lt_range _
    | some m => exact (List.sorted_lt_range ts.length).filter _
  | lt rhs =>
    simp only [searchTimestamps]
    cases find_lt ts rhs with
    | none => exact List.sorted_nil
    | some m => exact List.sorted_lt_range _
  | le rhs =>
    simp only [searchTimestamps]
    cases find_le ts rhs with
    | none => exact List.sorted_nil
    | some m => exact List.sorted_lt_range _
  | gt rhs =>
    simp only [searchTimestamps]
    cases find_gt ts rhs with
    | none => exact List.sorted_nil
    | some m => exact List.pairwise_lt_range' _ _
  | ge rhs =>
    simp only [searchTimestamps]
    cases find_ge ts rhs with
    | none => exact List.sorted_nil
    | some m => exact List.pairwise_lt_range' _ _
  | other test =>
    simp only [searchTimestamps]
    have hsub : List.Sublist ((ts.enum.filter (fun pr => test pr.2)).map Prod.fst)
        (ts.enum.map Prod.fst) := (List.filter_sublist _).map Prod.fst
    rw [List.enum_map_fst] at hsub
    exact List.Pairwise.sublist hsub (List.sorted_lt_range _)

/-- Every search result over sorted postings has sorted items. -/
theorem search_items_sorted (i : Index)
    (hm : ∀ kv ∈ i.measurements, List.Sorted (· < ·) kv.2)
    (hf : ∀ kv ∈ i.fields, List.Sorted (· < ·) kv.2)
    (ht : ∀ kv ∈ i.tags, ∀ vv ∈ kv.2, List.Sorted (· < ·) vv.2) :
    ∀ q : Query, List.Sorted (· < ·) (i.search q).items := by
  intro q
  induction q with
  | time op => exact searchTimestamps_sorted i.timestamps op
  | measurement t => exact searchMeasurement_sorted _ t hm
  | tag t => exact searchTags_sorted _ t ht
  | field ap => exact searchFields_sorted _ ap hf
  | qand q1 q2 ih1 ih2 =>
    exact intersection_two_sorted_lists_sorted _ _ ih1 ih2
  | qor q1 q2 ih1 ih2 =>
    exact union_two_sorted_lists_sorted _ _ ih1 ih2
  | qnot q1 ih =>
    by_cases hfl : q1.isFieldLeaf
    · rw [show (i.search (Query.qnot q1)).items = List.range i.num_items from by
        simp [Index.search, searchHelper, hfl]]
      exact List.sorted_lt_range _
    · rw [show (i.search (Query.qnot q1)).items
          = difference_generator_and_sorted_lists
              (List.range (searchHelper i q1).index_count) (searchHelper i q1).items
          from by simp [Index.search, searchHelper, hfl, IndexResult.invert]]
      exact (List.sorted_lt_range _).filter _

/-- C5 (amended): under the caller contract — valid removal sets, each
remove paired with, and each standalone update using, a strictly
increasing position map into the new range — every posting sequence of
every reachable index state is strictly ascending, duplicate-free and
within the position range, and every search result's items are strictly
ascending and duplicate-free. -/
theorem postings_and_results_sorted (ops : List Op) (q : Query)
    (h : OpsOK (Index.init true) ops) :
    (∀ kv ∈ (applyOps (Index.init true) ops).measurements,
        List.Sorted (· < ·) kv.2 ∧ kv.2.Nodup
          ∧ ∀ x ∈ kv.2, x < (applyOps (Index.init true) ops).num_items)
    ∧ (∀ kv ∈ (applyOps (Index.init true) ops).fields,
        List.Sorted (· < ·) kv.2 ∧ kv.2.Nodup
          ∧ ∀ x ∈ kv.2, x < (applyOps (Index.init true) ops).num_items)
    ∧ (∀ kv ∈ (applyOps (Index.init true) ops).tags, ∀ vv ∈ kv.2,
        List.Sorted (· < ·) vv.2 ∧ vv.2.Nodup
          ∧ ∀ x ∈ vv.2, x < (applyOps (Index.init true) ops).num_items)
    ∧ List.Sorted (· < ·) ((applyOps (Index.init true) ops).search q).items
    ∧ ((applyOps (Index.init true) ops).search q).items.Nodup := by
  obtain ⟨hts, hm, hf, ht⟩ := applyOps_WF ops (Index.init true) (init_WF true) h
  have hsr := search_items_sorted (applyOps (Index.init true) ops)
    (fun kv hkv => (hm kv hkv).1) (fun kv hkv => (hf kv hkv).1)
    (fun kv hkv vv hvv => ((ht kv hkv).2 vv hvv).1) q
  refine ⟨?_, ?_, ?_, hsr, hsr.nodup⟩
  · intro kv hkv
    exact ⟨(hm kv hkv).1, (hm kv hkv).1.nodup, (hm kv hkv).2.1⟩
  · intro kv hkv
    exact ⟨(hf kv hkv).1, (hf kv hkv).1.nodup, (hf kv hkv).2.1⟩
  · intro kv hkv vv hvv
    have hvv2 := (ht kv hkv).2 vv hvv
    exact ⟨hvv2.1, hvv2.1.nodup, hvv2.2.1⟩

/-- Counterexample to C5 as stated: a bare `remove` (with no compaction
update) leaves position 1 in the measurement posting list while
`num_items` shrinks to 1, so a stored position falls outside
`[0, num_items)`. -/
theorem remove_breaks_position_bound :
    (((Index.init true).build [⟨0, "m", [], []⟩, ⟨0, "m", [], []⟩]).remove [0]).measurements
        = [("m", [1])]
    ∧ (((Index.init true).build [⟨0, "m", [], []⟩, ⟨0, "m", [], []⟩]).remove [0]).num_items = 1
    ∧ ((((Index.init true).build [⟨0, "m", [], []⟩, ⟨0, "m", [], []⟩]).remove [0]).measurements.any
        (fun kv => kv.2.any
          (fun x => (((Index.init true).build [⟨0, "m", [], []⟩, ⟨0, "m", [], []⟩]).remove
              [0]).num_items ≤ x))) = true := by
  refine ⟨by decide, by decide, by decide⟩

/-- Witness for C5 at a concrete contract-respecting sequence: build two
records, remove position 0 and compact position 1 down to 0; the
timestamp-equality search result stays sorted and duplicate-free. -/
theorem postings_and_results_sorted_witness :
    List.Sorted (· < ·) ((applyOps (Index.init true)
        [Op.opBuild [⟨10, "m", [("t", "v")], ["f"]⟩, ⟨20, "m", [], []⟩],
          Op.opRemoveUpdate [0] [(1, 0)]]).search (Query.time (TimeOp.eq 20))).items
    ∧ ((applyOps (Index.init true)
        [Op.opBuild [⟨10, "m", [("t", "v")], ["f"]⟩, ⟨20, "m", [], []⟩],
          Op.opRemoveUpdate [0] [(1, 0)]]).search (Query.time (TimeOp.eq 20))).items.Nodup := by
  have hn1 : (applyOp (Index.init true)
      (Op.opBuild [⟨10, "m", [("t", "v")], ["f"]⟩, ⟨20, "m", [], []⟩])).num_items = 2 := by
    decide
  have hok : OpsOK (Index.init true)
      [Op.opBuild [⟨10, "m", [("t", "v")], ["f"]⟩, ⟨20, "m", [], []⟩],
        Op.opRemoveUpdate [0] [(1, 0)]] := by
    refine ⟨?_, ⟨by decide, ?_, ?_, ?_⟩, trivial⟩
    · intro p hp
      rcases List.mem_cons.mp hp with rfl | hp2
      · exact ⟨by decide, by decide⟩
      · rcases List.mem_cons.mp hp2 with rfl | hp3
        · exact ⟨by decide, by decide⟩
        · cases hp3
    · intro x hx
      rw [hn1]
      have : x = 0 := by simpa using hx
      omega
    · intro a ha hna
      rw [hn1] at ha
      have ha0 : a ≠ 0 := by simpa using hna
      have ha1 : a = 1 := by omega
      subst ha1
      refine ⟨0, rfl, ?_⟩
      rw [hn1]
      decide
    · intro a b a2 b2 ha hb hna hnb hab h1 h2
      rw [hn1] at ha hb
      have ha0 : a ≠ 0 := by simpa using hna
      have hb0 : b ≠ 0 := by simpa using hnb
      omega
  have h := postings_and_results_sorted
    [Op.opBuild [⟨10, "m", [("t", "v")], ["f"]⟩, ⟨20, "m", [], []⟩],
      Op.opRemoveUpdate [0] [(1, 0)]] (Query.time (TimeOp.eq 20)) hok
  exact ⟨h.2.2.2.1, h.2.2.2.2⟩
